import Mathlib

/-!
Verification of `extras/scripts/ochami-discovery-old2new.py`, a one-shot
converter from the old node-inventory format (per-node `bmc_*` fields,
singular `group`) to the new format (top-level `bmcs` list, `groups`
arrays, per-node `bmc` reference).

The Python document tree (as produced by `json.loads` / `yaml.safe_load`)
is embedded as the inductive `JVal`; Python dicts are insertion-ordered
association lists.  Each Python function of the script is translated to a
Lean function of the same name (modulo allowed characters).
-/

/-- A generic document value: the image of `json.loads`/`yaml.safe_load`.
Python `None` is `JVal.null`; dicts are insertion-ordered key/value
lists; numbers are modelled as integers (fractional values never reach
any branch the converter inspects beyond truthiness). -/
inductive JVal where
  | null : JVal
  | bool : Bool → JVal
  | num : Int → JVal
  | str : String → JVal
  | arr : List JVal → JVal
  | obj : List (String × JVal) → JVal
deriving Repr

mutual

/-- Decidable equality on `JVal`, by hand since deriving does not handle
the nested inductive. -/
def JVal.decEq : (a b : JVal) → Decidable (a = b)
  | .null, .null => isTrue rfl
  | .null, .bool _ => isFalse nofun
  | .null, .num _ => isFalse nofun
  | .null, .str _ => isFalse nofun
  | .null, .arr _ => isFalse nofun
  | .null, .obj _ => isFalse nofun
  | .bool _, .null => isFalse nofun
  | .bool a, .bool b =>
      match Bool.decEq a b with
      | isTrue h => isTrue (by rw [h])
      | isFalse h => isFalse (by intro he; injection he; contradiction)
  | .bool _, .num _ => isFalse nofun
  | .bool _, .str _ => isFalse nofun
  | .bool _, .arr _ => isFalse nofun
  | .bool _, .obj _ => isFalse nofun
  | .num _, .null => isFalse nofun
  | .num _, .bool _ => isFalse nofun
  | .num a, .num b =>
      match Int.decEq a b with
      | isTrue h => isTrue (by rw [h])
      | isFalse h => isFalse (by intro he; injection he; contradiction)
  | .num _, .str _ => isFalse nofun
  | .num _, .arr _ => isFalse nofun
  | .num _, .obj _ => isFalse nofun
  | .str _, .null => isFalse nofun
  | .str _, .bool _ => isFalse nofun
  | .str _, .num _ => isFalse nofun
  | .str a, .str b =>
      match String.decEq a b with
      | isTrue h => isTrue (by rw [h])
      | isFalse h => isFalse (by intro he; injection he; contradiction)
  | .str _, .arr _ => isFalse nofun
  | .str _, .obj _ => isFalse nofun
  | .arr _, .null => isFalse nofun
  | .arr _, .bool _ => isFalse nofun
  | .arr _, .num _ => isFalse nofun
  | .arr _, .str _ => isFalse nofun
  | .arr xs, .arr ys =>
      match JVal.decEqList xs ys with
      | isTrue h => isTrue (by rw [h])
      | isFalse h => isFalse (by intro he; injection he; contradiction)
  | .arr _, .obj _ => isFalse nofun
  | .obj _, .null => isFalse nofun
  | .obj _, .bool _ => isFalse nofun
  | .obj _, .num _ => isFalse nofun
  | .obj _, .str _ => isFalse nofun
  | .obj _, .arr _ => isFalse nofun
  | .obj xs, .obj ys =>
      match JVal.decEqObj xs ys with
      | isTrue h => isTrue (by rw [h])
      | isFalse h => isFalse (by intro he; injection he; contradiction)
termination_by structural a => a

/-- Decidable equality on lists of `JVal`. -/
def JVal.decEqList : (xs ys : List JVal) → Decidable (xs = ys)
  | [], [] => isTrue rfl
  | [], _ :: _ => isFalse nofun
  | _ :: _, [] => isFalse nofun
  | x :: xs, y :: ys =>
      match JVal.decEq x y, JVal.decEqList xs ys with
      | isTrue h1, isTrue h2 => isTrue (by rw [h1, h2])
      | isFalse h1, _ => isFalse (by intro he; injection he; contradiction)
      | _, isFalse h2 => isFalse (by intro he; injection he; contradiction)
termination_by structural xs => xs

/-- Decidable equality on key/value entry lists. -/
def JVal.decEqObj : (xs ys : List (String × JVal)) → Decidable (xs = ys)
  | [], [] => isTrue rfl
  | [], _ :: _ => isFalse nofun
  | _ :: _, [] => isFalse nofun
  | (k, v) :: xs, (l, w) :: ys =>
      match String.decEq k l, JVal.decEq v w, JVal.decEqObj xs ys with
      | isTrue h0, isTrue h1, isTrue h2 => isTrue (by rw [h0, h1, h2])
      | isFalse h0, _, _ => isFalse (by intro he; injection he with hp ht; injection hp; contradiction)
      | _, isFalse h1, _ => isFalse (by intro he; injection he with hp ht; injection hp; contradiction)
      | _, _, isFalse h2 => isFalse (by intro he; injection he; contradiction)
termination_by structural xs => xs

end

instance : DecidableEq JVal := JVal.decEq

/-- Python truthiness (`bool(v)`) on document values. -/
def truthy : JVal → Bool
  | .null => false
  | .bool b => b
  | .num n => n != 0
  | .str s => s != ""
  | .arr xs => !xs.isEmpty
  | .obj kvs => !kvs.isEmpty

/-- An insertion-ordered dictionary, the embedding of a Python dict. -/
abbrev Obj := List (String × JVal)

namespace Obj

/-- `d.get(k)`: `some v` when the key is present, `none` otherwise. -/
def dget (kvs : Obj) (k : String) : Option JVal :=
  (kvs.find? (fun e => e.1 == k)).map (·.2)

/-- `d.get(k)` with Python's `None` default collapsed into `JVal.null`
(Python cannot tell `get`'s `None` default from a stored `None`). -/
def dgetD (kvs : Obj) (k : String) : JVal :=
  (kvs.dget k).getD .null

/-- `k in d`. -/
def hasKey (kvs : Obj) (k : String) : Bool :=
  kvs.any (fun e => e.1 == k)

/-- `d.pop(k, None)` restricted to its effect on the dict: all entries for
`k` are removed (a Python dict holds at most one). -/
def dpop (kvs : Obj) (k : String) : Obj :=
  kvs.filter (fun e => e.1 != k)

/-- `d[k] = v`: replace in place when the key exists (keeping its
position), append otherwise. -/
def dset (kvs : Obj) (k : String) (v : JVal) : Obj :=
  if kvs.hasKey k then kvs.map (fun e => if e.1 == k then (k, v) else e)
  else kvs ++ [(k, v)]

/-- The keys of a dict, in order. -/
def keysOf (kvs : Obj) : List String := kvs.map (·.1)

end Obj

section Examples
example : Obj.dget [("a", .num 1), ("b", .null)] "b" = some .null := by decide
example : Obj.dset [("a", .num 1), ("b", .null)] "b" (.num 2)
    = [("a", .num 1), ("b", .num 2)] := by decide
example : Obj.dset [("a", .num 1)] "b" (.num 2)
    = [("a", .num 1), ("b", .num 2)] := by decide
end Examples

/-- Python `str(x)` as used on group elements.  Faithful on strings,
integers, booleans and `None`; container reprs are not modelled (the
script only ever meets strings here) and map to `""`. -/
def pyStr : JVal → String
  | .str s => s
  | .num n => toString n
  | .bool b => if b then "True" else "False"
  | .null => "None"
  | .arr _ => ""
  | .obj _ => ""

/-- The codepoint ranges matched by `\d` in a CPython 3 `str` pattern:
the Unicode decimal digits (category Nd), e.g. U+0665 ARABIC-INDIC
DIGIT FIVE is one, superscript U+00B2 is not. -/
def pyDigitRanges : List (Nat × Nat) :=
  [(48, 57), (1632, 1641), (1776, 1785), (1984, 1993), (2406, 2415), (2534, 2543),
   (2662, 2671), (2790, 2799), (2918, 2927), (3046, 3055), (3174, 3183), (3302, 3311),
   (3430, 3439), (3558, 3567), (3664, 3673), (3792, 3801), (3872, 3881), (4160, 4169),
   (4240, 4249), (6112, 6121), (6160, 6169), (6470, 6479), (6608, 6617), (6784, 6793),
   (6800, 6809), (6992, 7001), (7088, 7097), (7232, 7241), (7248, 7257), (42528, 42537),
   (43216, 43225), (43264, 43273), (43472, 43481), (43504, 43513), (43600, 43609),
   (44016, 44025), (65296, 65305), (66720, 66729), (68912, 68921), (69734, 69743),
   (69872, 69881), (69942, 69951), (70096, 70105), (70384, 70393), (70736, 70745),
   (70864, 70873), (71248, 71257), (71360, 71369), (71472, 71481), (71904, 71913),
   (72016, 72025), (72784, 72793), (73040, 73049), (73120, 73129), (92768, 92777),
   (92864, 92873), (93008, 93017), (120782, 120831), (123200, 123209), (123632, 123641),
   (125264, 125273), (130032, 130041)]

/-- `\d` on one character: a Unicode decimal digit. -/
def isPyDigit (c : Char) : Bool :=
  pyDigitRanges.any (fun r => decide (r.1 ≤ c.toNat) && decide (c.toNat ≤ r.2))

/-- The string ends with a newline (so `$` also matches just before
that final newline). -/
def endsNl (cs : List Char) : Bool := cs.getLast? == some '\n'

/-- After the leading `n` and digit, the greedy `\d+.*` must reach the
`$` anchor without crossing a newline (`.` never matches `\n` without
`re.DOTALL`): every character of the remaining tail, except an allowed
single trailing newline, is not a newline. -/
def noNlBody (rest : List Char) : Bool :=
  (if endsNl rest then rest.dropLast else rest).all (fun c => c != '\n')

/-- The match attempt of `n\d+.*$` at the current scan position: an
`n`, then a Unicode decimal digit, then a tail free of embedded
newlines up to the anchor. -/
def matchHead (c : Char) (cs : List Char) : Bool :=
  match cs with
  | d :: rest => (c == 'n') && isPyDigit d && noNlBody rest
  | [] => false

/-- `re.sub(r"n\d+.*$", "", s)` on the characters of `s`: scan left to
right for the first position where the match succeeds and delete
everything from there to the anchor — the end of the string, or the
position just before a single trailing newline, which the substitution
therefore preserves.  With no successful match the string is returned
unchanged (positions where `n` and a digit are followed by an embedded
newline are skipped, exactly as the regex engine skips them). -/
def trimNAux : List Char → List Char
  | [] => []
  | c :: cs =>
      if matchHead c cs then (if endsNl cs then ['\n'] else [])
      else c :: trimNAux cs

/-- `re.sub(r"n\d+.*$", "", s)` (step 2 of the BMC-xname derivation). -/
def trimN (s : String) : String := ⟨trimNAux s.data⟩

/-- `s.split(".", 1)[0]`: the characters before the first dot. -/
def leftLabel (s : String) : String := ⟨s.data.takeWhile (· ≠ '.')⟩

/-- `_derive_bmc_xname(node_xname, bmc_fqdn, bmc_xname)`.  Arguments are
the raw looked-up values (`JVal.null` for an absent key, matching
Python's `None`); truthiness guards each step just as in the source.  On
a non-string truthy `node_xname`/`bmc_fqdn` the source would raise
`TypeError` in `re.sub`/`str.split`; those dead branches are modelled as
the identity. -/
def derive_bmc_xname (node_xname bmc_fqdn bmc_xname : JVal) : JVal :=
  if truthy bmc_xname then bmc_xname
  else if truthy node_xname then
    match node_xname with
    | .str s => .str (trimN s)
    | v => v
  else if truthy bmc_fqdn then
    match bmc_fqdn with
    | .str s => .str (leftLabel s)
    | v => v
  else .null

/-- The `seen`-set deduplication loop of `normalize_groups_inplace`:
drop every element already seen, keeping first occurrences in order. -/
def dedupAux (seen : List String) : List String → List String
  | [] => []
  | x :: xs => if x ∈ seen then dedupAux seen xs else x :: dedupAux (x :: seen) xs

/-- Deduplicate preserving first occurrence (`seen = set(); deduped = []; ...`). -/
def dedupFirst (xs : List String) : List String := dedupAux [] xs

/-- `[str(x) for x in g if x]` for a sequence `g` (and `[]` when `g` is
neither string nor sequence). -/
def strsOfSeq : JVal → List String
  | .arr xs => (xs.filter truthy).map pyStr
  | _ => []

/-- The list assigned to `node["groups"]`: the list itself, or `None`
when it is empty (`deduped or None` / `groups or None`). -/
def listOrNull (xs : List String) : JVal :=
  if xs.isEmpty then .null else .arr (xs.map .str)

/-- The group values accumulated from the `group` key (first half of
`normalize_groups_inplace`): a non-empty string seeds the list, a
sequence contributes its stringified truthy elements. -/
def groupSeed (node : Obj) : List String :=
  if node.hasKey "group" ∧ node.dgetD "group" ≠ .null then
    match node.dgetD "group" with
    | .str s => if s ≠ "" then [s] else []
    | .arr xs => strsOfSeq (.arr xs)
    | _ => []
  else []

/-- The values contributed by the `groups` key (second half of
`normalize_groups_inplace`): a string is appended as-is (even empty), a
sequence contributes its stringified truthy elements. -/
def groupsContrib (node : Obj) : List String :=
  match node.dgetD "groups" with
  | .str s => [s]
  | .arr xs => strsOfSeq (.arr xs)
  | _ => []

/-- `normalize_groups_inplace(node)`.  Pops `group` (only when present
and non-null), accumulates group values, and sets `groups`; the
deduplication runs only in the branch where a non-null `groups` key was
present, exactly as in the source. -/
def normalize_groups (node : Obj) : Obj :=
  let node1 :=
    if node.hasKey "group" ∧ node.dgetD "group" ≠ .null then node.dpop "group"
    else node
  let acc := groupSeed node
  if node1.hasKey "groups" ∧ node1.dgetD "groups" ≠ .null then
    node1.dset "groups" (listOrNull (dedupFirst (acc ++ groupsContrib node1)))
  else
    node1.dset "groups" (listOrNull acc)

/-- The values popped off a node for the four `BMC_FIELDS`
(`node.pop(fld, None)`), `JVal.null` when absent. -/
structure BmcVals where
  mk ::
  mac : JVal
  ip : JVal
  fqdn : JVal
  xn : JVal
deriving DecidableEq, Repr

/-- `{fld: node.pop(fld, None) for fld in BMC_FIELDS}`, value part. -/
def bmcValsOf (node : Obj) : BmcVals :=
  BmcVals.mk (node.dgetD "bmc_mac") (node.dgetD "bmc_ip")
    (node.dgetD "bmc_fqdn") (node.dgetD "bmc_xname")

/-- The node after the four `BMC_FIELDS` pops. -/
def stripBmc (node : Obj) : Obj :=
  (((node.dpop "bmc_mac").dpop "bmc_ip").dpop "bmc_fqdn").dpop "bmc_xname"

/-- An aggregated BMC record: the dict built up in `bmcs_by_key`; a
field is `none` when its key is absent (fields are only ever stored
with truthy values). -/
structure BmcRec where
  mk ::
  xname : Option JVal
  mac : Option JVal
  ip : Option JVal
  fqdn : Option JVal
deriving DecidableEq, Repr

/-- The fresh record `{}`. -/
def BmcRec.empty : BmcRec := BmcRec.mk none none none none

/-- Truthiness of `rec.get(fld)`: `False` when the key is absent. -/
def otruthy : Option JVal → Bool
  | some v => truthy v
  | none => false

/-- The aggregation key: `("xname", bmc_xname)` or
`("triplet", bmc_mac, bmc_ip, bmc_fqdn)`. -/
inductive BmcKey where
  | xn : JVal → BmcKey
  | triplet : JVal → JVal → JVal → BmcKey
deriving DecidableEq, Repr

/-- `bmcs_by_key`: a Python dict keyed by `BmcKey`, in insertion order. -/
abbrev BmcDict := List (BmcKey × BmcRec)

/-- `bmcs_by_key.get(key, {})`. -/
def kfind (d : BmcDict) (k : BmcKey) : Option BmcRec :=
  (d.find? (fun e => e.1 == k)).map (·.2)

/-- `bmcs_by_key[key] = rec`: replace in place or append. -/
def kset (d : BmcDict) (k : BmcKey) (r : BmcRec) : BmcDict :=
  if d.any (fun e => e.1 == k) then d.map (fun e => if e.1 == k then (k, r) else e)
  else d ++ [(k, r)]

/-- The four first-writer-wins merge lines of `convert`.  Each of the
four sequential conditional updates reads and writes a single field and
the four fields are disjoint, so the sequence is rendered as one
simultaneous record build. -/
def mergeRec (r : BmcRec) (bx : JVal) (bv : BmcVals) : BmcRec :=
  BmcRec.mk
    (if truthy bx ∧ ¬ otruthy r.xname then some bx else r.xname)
    (if truthy bv.mac ∧ ¬ otruthy r.mac then some bv.mac else r.mac)
    (if truthy bv.ip ∧ ¬ otruthy r.ip then some bv.ip else r.ip)
    (if truthy bv.fqdn ∧ ¬ otruthy r.fqdn then some bv.fqdn else r.fqdn)

/-- The loop state of `convert`: the `bmcs_by_key` dict and the
`node_records` list accumulated so far. -/
structure ConvSt where
  mk ::
  bmcs : BmcDict
  nodes : List Obj
deriving Repr

/-- One iteration of the `for raw_node in nodes` loop of `convert`:
non-dict entries are skipped; a dict is shallow-copied, stripped of the
BMC fields, group-normalized, and possibly merged into `bmcs_by_key`. -/
def stepNode (st : ConvSt) (raw_node : JVal) : ConvSt :=
  match raw_node with
  | .obj raw =>
      let bv := bmcValsOf raw
      let node2 := normalize_groups (stripBmc raw)
      let bx := derive_bmc_xname (node2.dgetD "xname") bv.fqdn bv.xn
      let has_any := truthy bv.mac || truthy bv.ip || truthy bv.fqdn || truthy bv.xn
      if has_any || truthy bx then
        let key := if truthy bx then BmcKey.xn bx else BmcKey.triplet bv.mac bv.ip bv.fqdn
        let r := (kfind st.bmcs key).getD BmcRec.empty
        let node3 := if truthy bx then node2.dset "bmc" bx else node2
        ConvSt.mk (kset st.bmcs key (mergeRec r bx bv)) (st.nodes ++ [node3])
      else
        ConvSt.mk st.bmcs (st.nodes ++ [node2])
  | _ => st

/-- Constructor rank, used to totalize the comparison of sort-key
components.  In the script these components are strings (or the `""`
fallback), where the model matches Python's lexicographic comparison
exactly; on mixed non-string components Python's `sorted` would raise
`TypeError`, which is totalized away by ranking constructors. -/
def jvalRank : JVal → Nat
  | .null => 0
  | .bool _ => 1
  | .num _ => 2
  | .str _ => 3
  | .arr _ => 4
  | .obj _ => 5

/-- Within-rank comparison: Python order on strings, ints and bools;
other same-rank pairs are treated as ties. -/
def jvalLeSame : JVal → JVal → Bool
  | .str s, .str t => s ≤ t
  | .num n, .num m => n ≤ m
  | .bool x, .bool y => x ≤ y
  | _, _ => true

/-- Total preorder on sort-key components. -/
def jvalLe (a b : JVal) : Bool :=
  jvalRank a < jvalRank b || (jvalRank a == jvalRank b && jvalLeSame a b)

/-- Strict part of `jvalLe`. -/
def jvalLt (a b : JVal) : Bool := jvalLe a b && !jvalLe b a

/-- Equivalence part of `jvalLe`. -/
def jvalEqv (a b : JVal) : Bool := jvalLe a b && jvalLe b a

/-- The value of `sort_key`: Python's `("0", xname)` or
`("1", ip, mac, fqdn)` tuples, tagged by constructor (`withX` compares
before `noX`, mirroring `"0" < "1"`). -/
inductive SKey where
  | withX : JVal → SKey
  | noX : JVal → JVal → JVal → SKey
deriving DecidableEq, Repr

/-- `rec.get(fld) or ""`: the stored value when truthy, else `""`. -/
def orEmpty : Option JVal → JVal
  | some v => if truthy v then v else .str ""
  | none => .str ""

/-- `sort_key(item)` from `convert`: identifier records sort by their
`xname`, the rest by the `(ip, mac, fqdn)` triple with missing values
as empty strings. -/
def sort_key (pr : BmcKey × BmcRec) : SKey :=
  match pr.2.xname with
  | some x =>
      if truthy x then SKey.withX x
      else SKey.noX (orEmpty pr.2.ip) (orEmpty pr.2.mac) (orEmpty pr.2.fqdn)
  | none => SKey.noX (orEmpty pr.2.ip) (orEmpty pr.2.mac) (orEmpty pr.2.fqdn)

/-- Python tuple comparison on sort keys (`("0", ...)` before
`("1", ...)`; lexicographic within). -/
def skeyLe : SKey → SKey → Bool
  | .withX _, .noX _ _ _ => true
  | .noX _ _ _, .withX _ => false
  | .withX a, .withX b => jvalLe a b
  | .noX a1 a2 a3, .noX b1 b2 b3 =>
      jvalLt a1 b1 || (jvalEqv a1 b1 && (jvalLt a2 b2 || (jvalEqv a2 b2 && jvalLe a3 b3)))

/-- A single emitted key/value entry (`if rec.get(k) is not None: out[k] = ...`). -/
def optEntry (k : String) : Option JVal → Obj
  | some v => [(k, v)]
  | none => []

/-- The mapping emitted for one aggregated record: only known fields,
in the fixed order `xname`, `mac`, `ip`, `fqdn`. -/
def emitRec (r : BmcRec) : Obj :=
  optEntry "xname" r.xname ++ optEntry "mac" r.mac ++ optEntry "ip" r.ip ++ optEntry "fqdn" r.fqdn

/-- The comparison handed to the sort in `convert`. -/
def pairLe (a b : BmcKey × BmcRec) : Bool := skeyLe (sort_key a) (sort_key b)

/-- `pairLe` as a decidable relation, for `List.insertionSort`. -/
def pairProp (a b : BmcKey × BmcRec) : Prop := pairLe a b = true

instance : DecidableRel pairProp := fun a b => instDecidableEqBool (pairLe a b) true

/-- The loop state after processing all input nodes. -/
def foldNodes (nodes : List JVal) : ConvSt := nodes.foldl stepNode (ConvSt.mk [] [])

/-- `convert(data)`.  `Except.error msg` models `raise SystemExit(msg)`;
Python's `sorted` is a stable sort, and any two stable sorts under the
same total preorder produce the same list, so it is modelled by the
stable (and structurally recursive, hence kernel-computable)
`List.insertionSort`. -/
def convert (data : JVal) : Except String JVal :=
  match data with
  | .obj kvs =>
      match Obj.dget kvs "nodes" with
      | some (.arr nodes) =>
          let st := foldNodes nodes
          let sorted := List.insertionSort pairProp st.bmcs
          .ok (.obj [("bmcs", .arr (sorted.map (fun pr => JVal.obj (emitRec pr.2)))),
                     ("nodes", .arr (st.nodes.map JVal.obj))])
      | _ => .error "Input must contain a top-level 'nodes' array."
  | _ => .error "Top-level document must be a mapping/dict containing 'nodes'."

section PipelineModel

/-- The `-i` (`--in-format`) choice. -/
inductive InFmt where
  | auto | jsonF | yamlF
deriving DecidableEq, Repr

/-- The `-o` (`--out-format`) choice. -/
inductive OutFmt where
  | matchF | jsonF | yamlF
deriving DecidableEq, Repr

/-- The detected input format. -/
inductive Fmt where
  | json | yaml
deriving DecidableEq, Repr

/-- Observable outcome of one run: the exit status, the document
written to stdout (if any), and how many diagnostic lines went to
stderr. -/
structure RunOut where
  mk ::
  exitCode : Nat
  stdoutDoc : Option JVal
  stderrLines : Nat
deriving DecidableEq, Repr

/-- The stderr lines written by `sys.stderr.write(f"...: {e}\n")` for a
newline-free literal part: one plus the newlines inside the exception
text `str(e)` (PyYAML's `MarkedYAMLError` texts span several lines,
`json.JSONDecodeError` texts are a single line). -/
def msgLines (e : String) : Nat := e.data.count '\n' + 1

/-- `read_input(fmt_hint)`.  The external parsers are oracles returning
either the parsed document or the text `str(e)` of the exception they
raised; `haveYaml` is `HAVE_YAML`.  An error carries `(exit code,
stderr lines written)`: a parse diagnostic embeds the exception text,
so it spans `msgLines` of that text; the capability diagnostics are
fixed one-line strings, except on the `auto` path with PyYAML missing,
where two lines are written.  The `auto` path discards the JSON
exception text (`except Exception: pass`). -/
def read_input (haveYaml : Bool) (parseJ parseY : String → Except String JVal)
    (hint : InFmt) (raw : String) : Except (Nat × Nat) (Fmt × JVal) :=
  match hint with
  | .jsonF =>
      match parseJ raw with
      | .ok v => .ok (.json, v)
      | .error e => .error (2, msgLines e)
  | .yamlF =>
      if haveYaml then
        match parseY raw with
        | .ok v => .ok (.yaml, v)
        | .error e => .error (2, msgLines e)
      else .error (2, 1)
  | .auto =>
      match parseJ raw with
      | .ok v => .ok (.json, v)
      | .error _ =>
          if haveYaml then
            match parseY raw with
            | .ok v => .ok (.yaml, v)
            | .error e => .error (2, msgLines e)
          else .error (2, 2)

/-- `main()`.  `raise SystemExit(msg)` with a string argument makes
CPython print the message to stderr and exit with status 1 (not 2);
`write_output` checks YAML availability before writing anything. -/
def main_run (haveYaml : Bool) (parseJ parseY : String → Except String JVal)
    (hint : InFmt) (ofmt : OutFmt) (raw : String) : RunOut :=
  match read_input haveYaml parseJ parseY hint raw with
  | .error (c, l) => RunOut.mk c none l
  | .ok (infmt, data) =>
      match convert data with
      | .error _ => RunOut.mk 1 none 1
      | .ok doc =>
          let f : Fmt :=
            match ofmt with
            | .matchF => infmt
            | .jsonF => .json
            | .yamlF => .yaml
          match f with
          | .json => RunOut.mk 0 (some doc) 0
          | .yaml => if haveYaml then RunOut.mk 0 (some doc) 0 else RunOut.mk 2 none 1

end PipelineModel

deriving instance DecidableEq for Except

/-- An optional string as a document value (`None` for `none`): the
shape of the derivation's arguments in every non-crashing run. -/
def jstr : Option String → JVal
  | some s => .str s
  | none => .null

/-- The position in front of which `$` matches: the end of the string,
or just before a trailing newline. -/
def dollarQ (cs : List Char) : Nat :=
  if endsNl cs then cs.length - 1 else cs.length

/-- The pattern `n\d+.*$` matches at position `i`: an `n`, then a
Unicode decimal digit, and no newline anywhere between the digit and
the `$` anchor (the greedy `\d+.*` never crosses a newline). -/
def pyMatchAt (cs : List Char) (i : Nat) : Prop :=
  cs[i]? = some 'n'
  ∧ (∃ d, cs[i + 1]? = some d ∧ isPyDigit d = true)
  ∧ (∀ j, i + 2 ≤ j → j < dollarQ cs → ¬ cs[j]? = some '\n')

/-- The dict entries of the input node list, in order (the loop skips
non-dict entries). -/
def objsOf (l : List JVal) : List Obj :=
  l.filterMap (fun v => match v with | .obj o => some o | _ => none)

/-- The identifier `convert` derives for one raw node. -/
def nodeDerived (o : Obj) : JVal :=
  derive_bmc_xname (Obj.dgetD o "xname") (Obj.dgetD o "bmc_fqdn") (Obj.dgetD o "bmc_xname")

/-- The processed node appended to `node_records` for one raw node. -/
def procNode (raw : Obj) : Obj :=
  if truthy (nodeDerived raw) = true then
    (normalize_groups (stripBmc raw)).dset "bmc" (nodeDerived raw)
  else normalize_groups (stripBmc raw)

/-- The effect of one loop iteration of `convert` on `bmcs_by_key`. -/
def stepBmcs (bd : BmcDict) (raw : Obj) : BmcDict :=
  let bv := bmcValsOf raw
  let bx := nodeDerived raw
  if truthy bv.mac || truthy bv.ip || truthy bv.fqdn || truthy bv.xn || truthy bx then
    let key := if truthy bx then BmcKey.xn bx else BmcKey.triplet bv.mac bv.ip bv.fqdn
    kset bd key (mergeRec ((kfind bd key).getD BmcRec.empty) bx bv)
  else bd

/-- The first truthy (first-written) value of a BMC field over a list
of raw nodes. -/
def firstT (os : List Obj) (fld : String) : Option JVal :=
  (os.map (fun o => Obj.dgetD o fld)).find? truthy

/-- The raw nodes whose derived identifier is `x`. -/
def relevant (os : List Obj) (x : JVal) : List Obj :=
  os.filter (fun o => nodeDerived o == x)

/-- Field lookup on an emitted mapping value. -/
def getF (b : JVal) (k : String) : Option JVal :=
  match b with
  | .obj o => Obj.dget o k
  | _ => none

/-- The `xname` field of an emitted BMC mapping. -/
def bmcXnameOf (b : JVal) : Option JVal := getF b "xname"

/-- `sort_key` recomputed from an emitted mapping (the emitted mapping
carries the same four fields as the aggregated record). -/
def emittedSortKey (b : JVal) : SKey :=
  match getF b "xname" with
  | some x =>
      if truthy x then SKey.withX x
      else SKey.noX (orEmpty (getF b "ip")) (orEmpty (getF b "mac")) (orEmpty (getF b "fqdn"))
  | none => SKey.noX (orEmpty (getF b "ip")) (orEmpty (getF b "mac")) (orEmpty (getF b "fqdn"))

/-- The loop invariant of `convert`: what `bmcs_by_key` holds after the
raw nodes `os` have been processed.  Identifier-keyed records carry the
identifier and the first-written value of each field over the sharing
nodes; triplet-keyed records carry exactly the truthy components of
their key and never an `xname`. -/
def BmcsInv (os : List Obj) (bd : BmcDict) : Prop :=
  ((bd.map (fun e => e.1)).Nodup)
  ∧ (∀ x : JVal, truthy x = true →
      ((kfind bd (BmcKey.xn x)).isSome = true ↔ relevant os x ≠ []))
  ∧ (∀ x r, truthy x = true → kfind bd (BmcKey.xn x) = some r →
      r.xname = some x
      ∧ r.mac = firstT (relevant os x) "bmc_mac"
      ∧ r.ip = firstT (relevant os x) "bmc_ip"
      ∧ r.fqdn = firstT (relevant os x) "bmc_fqdn")
  ∧ (∀ m i f r, kfind bd (BmcKey.triplet m i f) = some r →
      r.xname = none
      ∧ r.mac = (if truthy m = true then some m else none)
      ∧ r.ip = (if truthy i = true then some i else none)
      ∧ r.fqdn = (if truthy f = true then some f else none))
  ∧ (∀ x : JVal, truthy x = false → kfind bd (BmcKey.xn x) = none)

/-- The keys the converter may remove, rewrite or add on a node; all
other keys are untouched. -/
def SPECIAL : List String :=
  ["bmc_mac", "bmc_ip", "bmc_fqdn", "bmc_xname", "group", "groups", "bmc"]

/-- The frame relation between an input node and its processed copy:
non-special entries are preserved verbatim in order; the four `bmc_*`
keys are gone; `group` is gone exactly when it was present non-null;
`groups` holds the normalized value; `bmc` holds the derived identifier
when one exists, else whatever the input carried. -/
def procFrame (raw o : Obj) : Prop :=
  o.filter (fun e => !(SPECIAL.contains e.1)) = raw.filter (fun e => !(SPECIAL.contains e.1))
  ∧ Obj.dget o "bmc_mac" = none
  ∧ Obj.dget o "bmc_ip" = none
  ∧ Obj.dget o "bmc_fqdn" = none
  ∧ Obj.dget o "bmc_xname" = none
  ∧ Obj.dget o "group" = (if Obj.hasKey raw "group" = true ∧ Obj.dgetD raw "group" ≠ .null
      then none else Obj.dget raw "group")
  ∧ Obj.dget o "groups" = some (if Obj.hasKey raw "groups" = true ∧ Obj.dgetD raw "groups" ≠ .null
      then listOrNull (dedupFirst (groupSeed raw ++ groupsContrib raw))
      else listOrNull (groupSeed raw))
  ∧ Obj.dget o "bmc" = (if truthy (nodeDerived raw) = true
      then some (nodeDerived raw) else Obj.dget raw "bmc")

/-- A dict with no duplicate keys (every dict produced by the Python
parsers). -/
def NodupKeys (d : Obj) : Prop := (d.map (fun e => e.1)).Nodup

/-- Two document values equal up to a permutation of the key order of a
node mapping (with well-formed, duplicate-free keys); non-mapping values
must be equal. -/
def keyPerm (v w : JVal) : Prop :=
  match v, w with
  | .obj a, .obj b => a.Perm b ∧ NodupKeys a ∧ NodupKeys b
  | v, w => v = w

/-- A Unicode decimal digit is not a newline (the smallest Nd
codepoint is 48). -/
theorem isPyDigit_ne_nl (c : Char) (h : isPyDigit c = true) : c ≠ '\n' := by
  intro hc
  rw [hc] at h
  exact absurd h (by decide)

/-- `getElem?` commutes with a long-enough `take`. -/
theorem getElem?_take_lt : ∀ (l : List Char) (n j : Nat), j < n → (l.take n)[j]? = l[j]? := by
  intro l
  induction l with
  | nil => intro n j _; simp
  | cons a l ih =>
      intro n j hj
      cases n with
      | zero => omega
      | succ n =>
          rw [List.take_succ_cons]
          cases j with
          | zero => rw [List.getElem?_cons_zero, List.getElem?_cons_zero]
          | succ j =>
              rw [List.getElem?_cons_succ, List.getElem?_cons_succ]
              exact ih n j (by omega)

/-- A cons in front of a nonempty list does not change the last
element. -/
theorem endsNl_cons (c : Char) (cs : List Char) (h : cs ≠ []) :
    endsNl (c :: cs) = endsNl cs := by
  obtain ⟨x, t, rfl⟩ := List.exists_cons_of_ne_nil h
  rw [endsNl, endsNl, List.getLast?_cons_cons]

/-- Two conses in front do not change the trailing-newline status when
the first tail element is itself not a newline. -/
theorem endsNl_cons2 (c d : Char) (rest : List Char) (hd : d ≠ '\n') :
    endsNl (c :: d :: rest) = endsNl rest := by
  cases rest with
  | nil => simp [endsNl, List.getLast?_cons_cons, List.getLast?_singleton, hd]
  | cons x t =>
      rw [endsNl_cons c (d :: x :: t) (by simp), endsNl_cons d (x :: t) (by simp)]

/-- Dropping all but the last character of a newline-terminated list
leaves exactly that newline. -/
theorem drop_pred_of_endsNl (l : List Char) (h : endsNl l = true) :
    l.drop (l.length - 1) = ['\n'] := by
  induction l with
  | nil => simp [endsNl] at h
  | cons x l ih =>
      cases l with
      | nil =>
          have hx : x = '\n' := by
            simpa [endsNl, List.getLast?_singleton] using h
          simp [hx]
      | cons y t =>
          rw [endsNl_cons x (y :: t) (by simp)] at h
          have hlen : (x :: y :: t).length - 1 = (y :: t).length - 1 + 1 := by
            simp only [List.length_cons]
            omega
          rw [hlen, List.drop_succ_cons]
          exact ih h

/-- The `$` anchor shifts by one under a cons onto a nonempty list. -/
theorem dollarQ_cons (c : Char) (cs : List Char) (h : cs ≠ []) :
    dollarQ (c :: cs) = dollarQ cs + 1 := by
  rw [dollarQ, dollarQ, endsNl_cons c cs h]
  have h1 : 0 < cs.length := List.length_pos.2 h
  by_cases he : endsNl cs = true
  · rw [if_pos he, if_pos he]
    simp only [List.length_cons]
    omega
  · rw [if_neg he, if_neg he]
    simp only [List.length_cons]

/-- The `$` anchor shifts by two under two conses when the second
character is not a newline. -/
theorem dollarQ_cons2 (c d : Char) (rest : List Char) (hd : d ≠ '\n') :
    dollarQ (c :: d :: rest) = dollarQ rest + 2 := by
  rw [dollarQ, dollarQ, endsNl_cons2 c d rest hd]
  by_cases h : endsNl rest = true
  · rw [if_pos h, if_pos h]
    have hne : rest ≠ [] := by
      intro hr
      rw [hr] at h
      exact absurd h (by decide)
    have h1 : 0 < rest.length := List.length_pos.2 hne
    simp only [List.length_cons]
    omega
  · rw [if_neg h, if_neg h]
    simp only [List.length_cons]

/-- The anchor position is the length of the list with the allowed
trailing newline removed. -/
theorem dollarQ_eq_length (cs : List Char) :
    dollarQ cs = (if endsNl cs then cs.dropLast else cs).length := by
  by_cases h : endsNl cs = true
  · rw [dollarQ, if_pos h, if_pos h, List.length_dropLast]
  · rw [dollarQ, if_neg h, if_neg h]

/-- Below the anchor, indexing the trailing-newline-stripped list is
indexing the list itself. -/
theorem body_getElem? (rest : List Char) (j : Nat) (hj : j < dollarQ rest) :
    (if endsNl rest then rest.dropLast else rest)[j]? = rest[j]? := by
  by_cases h : endsNl rest = true
  · rw [if_pos h]
    rw [dollarQ, if_pos h] at hj
    rw [List.dropLast_eq_take]
    exact getElem?_take_lt rest (rest.length - 1) j hj
  · rw [if_neg h]

/-- `noNlBody` is exactly newline-freeness below the anchor. -/
theorem noNlBody_iff (rest : List Char) :
    noNlBody rest = true ↔ ∀ j, j < dollarQ rest → ¬ rest[j]? = some '\n' := by
  rw [noNlBody]
  constructor
  · intro h j hj hsome
    have hLj := body_getElem? rest j hj
    have hmem : '\n' ∈ (if endsNl rest then rest.dropLast else rest) :=
      List.mem_iff_getElem?.2 ⟨j, hLj.trans hsome⟩
    have hx := List.all_eq_true.1 h '\n' hmem
    simp at hx
  · intro h
    apply List.all_eq_true.2
    intro x hx
    obtain ⟨j, hjl, hxj⟩ := List.mem_iff_getElem.1 hx
    have hj : j < dollarQ rest := by
      rw [dollarQ_eq_length rest]
      exact hjl
    have hLj := body_getElem? rest j hj
    have hsome : rest[j]? = some x := by
      rw [← hLj, List.getElem?_eq_getElem hjl, hxj]
    have hxn : x ≠ '\n' := fun hee => h j hj (hee ▸ hsome)
    simp [hxn]

/-- The third match clause, transported across the leading `n` and the
digit. -/
theorem pyMatch_third_shift2 (c d : Char) (rest : List Char) (hd : d ≠ '\n') :
    (∀ j, 2 ≤ j → j < dollarQ (c :: d :: rest) → ¬ (c :: d :: rest)[j]? = some '\n')
      ↔ ∀ j, j < dollarQ rest → ¬ rest[j]? = some '\n' := by
  rw [dollarQ_cons2 c d rest hd]
  constructor
  · intro h j hj hn
    apply h (j + 2) (by omega) (by omega)
    show (c :: d :: rest)[j + 1 + 1]? = some '\n'
    rw [List.getElem?_cons_succ, List.getElem?_cons_succ]
    exact hn
  · intro h j h2 hj hn
    obtain ⟨j', rfl⟩ : ∃ j', j = j' + 2 := ⟨j - 2, by omega⟩
    apply h j' (by omega)
    have hn' : (c :: d :: rest)[j' + 1 + 1]? = some '\n' := hn
    rw [List.getElem?_cons_succ, List.getElem?_cons_succ] at hn'
    exact hn'

/-- The scan's head test succeeds exactly when the pattern matches at
the current position. -/
theorem matchHead_iff (c : Char) (cs : List Char) :
    matchHead c cs = true ↔ pyMatchAt (c :: cs) 0 := by
  cases cs with
  | nil =>
      constructor
      · intro h
        exact absurd h (by simp [matchHead])
      · rintro ⟨-, ⟨d, hd, -⟩, -⟩
        exact absurd hd (by simp)
  | cons d rest =>
      constructor
      · intro h
        rw [matchHead] at h
        simp only [Bool.and_eq_true, beq_iff_eq] at h
        obtain ⟨⟨hc, hdg⟩, hbody⟩ := h
        subst hc
        refine ⟨rfl, ⟨d, by simp, hdg⟩, ?_⟩
        exact (pyMatch_third_shift2 'n' d rest (isPyDigit_ne_nl d hdg)).2
          ((noNlBody_iff rest).1 hbody)
      · rintro ⟨h0, ⟨e, h1, he⟩, h2⟩
        have hc : c = 'n' := by simpa using h0
        have hde : d = e := by simpa using h1
        subst hde
        rw [matchHead]
        simp only [Bool.and_eq_true, beq_iff_eq]
        exact ⟨⟨hc, he⟩, (noNlBody_iff rest).2
          ((pyMatch_third_shift2 c d rest (isPyDigit_ne_nl d he)).1 h2)⟩

/-- The match predicate shifts under a cons. -/
theorem pyMatchAt_cons_succ (c : Char) (cs : List Char) (j : Nat) :
    pyMatchAt (c :: cs) (j + 1) ↔ pyMatchAt cs j := by
  cases cs with
  | nil =>
      constructor
      · rintro ⟨h0, -, -⟩
        rw [List.getElem?_cons_succ] at h0
        simp at h0
      · rintro ⟨h0, -, -⟩
        simp at h0
  | cons d rest =>
      have hq := dollarQ_cons c (d :: rest) (by simp)
      constructor
      · rintro ⟨h0, ⟨e, h1, he⟩, h2⟩
        rw [List.getElem?_cons_succ] at h0
        rw [List.getElem?_cons_succ] at h1
        refine ⟨h0, ⟨e, h1, he⟩, ?_⟩
        intro k hk hkq hkn
        apply h2 (k + 1) (by omega) (by omega)
        rw [List.getElem?_cons_succ]
        exact hkn
      · rintro ⟨h0, ⟨e, h1, he⟩, h2⟩
        refine ⟨?_, ⟨e, ?_, he⟩, ?_⟩
        · rw [List.getElem?_cons_succ]
          exact h0
        · rw [List.getElem?_cons_succ]
          exact h1
        · intro k hk hkq hkn
          obtain ⟨k', rfl⟩ : ∃ k', k = k' + 1 := ⟨k - 1, by omega⟩
          rw [List.getElem?_cons_succ] at hkn
          exact h2 k' (by omega) (by omega) hkn

/-- When the pattern matches nowhere, the substitution is the
identity. -/
theorem trimNAux_of_none (cs : List Char) (h : ∀ i, ¬ pyMatchAt cs i) :
    trimNAux cs = cs := by
  induction cs with
  | nil => rfl
  | cons c cs ih =>
      rw [trimNAux, if_neg, ih]
      · intro i hi
        exact h (i + 1) ((pyMatchAt_cons_succ c cs i).2 hi)
      · intro hc
        exact h 0 ((matchHead_iff c cs).1 hc)

/-- At the leftmost successful match, the substitution keeps the
prefix before the match and whatever lies at or beyond the `$` anchor
(a trailing newline, or nothing). -/
theorem trimNAux_of_min (cs : List Char) (i : Nat) (hi : pyMatchAt cs i)
    (hmin : ∀ j, j < i → ¬ pyMatchAt cs j) :
    trimNAux cs = cs.take i ++ cs.drop (dollarQ cs) := by
  induction cs generalizing i with
  | nil => obtain ⟨h1, -, -⟩ := hi; simp at h1
  | cons c cs ih =>
      cases i with
      | zero =>
          obtain ⟨d, h1, hdg⟩ := hi.2.1
          have hcs : cs ≠ [] := by
            intro hemp
            rw [hemp] at h1
            simp at h1
          rw [trimNAux, if_pos ((matchHead_iff c cs).2 hi), List.take_zero, List.nil_append,
            dollarQ, endsNl_cons c cs hcs]
          by_cases he : endsNl cs = true
          · rw [if_pos he, if_pos he]
            have hlast : (c :: cs).length - 1 = cs.length - 1 + 1 := by
              have h1l : 0 < cs.length := List.length_pos.2 hcs
              simp only [List.length_cons]
              omega
            rw [hlast, List.drop_succ_cons, drop_pred_of_endsNl cs he]
          · rw [if_neg he, if_neg he, List.drop_length]
      | succ j =>
          have hj := (pyMatchAt_cons_succ c cs j).1 hi
          have hcs : cs ≠ [] := by
            intro hemp
            rw [hemp] at hj
            obtain ⟨h0, -, -⟩ := hj
            simp at h0
          have hrec := ih j hj
            (fun k hk hnk => hmin (k + 1) (by omega) ((pyMatchAt_cons_succ c cs k).2 hnk))
          rw [trimNAux, if_neg, List.take_succ_cons, dollarQ_cons c cs hcs,
            List.drop_succ_cons, List.cons_append, hrec]
          intro hc
          exact hmin 0 (by omega) ((matchHead_iff c cs).1 hc)

/-- The head surviving a `dropWhile` falsifies the predicate. -/
theorem dropWhile_eq_cons_false {α : Type} {p : α → Bool} :
    ∀ (l : List α) (c : α) (t : List α), l.dropWhile p = c :: t → p c = false := by
  intro l
  induction l with
  | nil => intro c t h; simp [List.dropWhile] at h
  | cons a l ih =>
      intro c t h
      rw [List.dropWhile_cons] at h
      by_cases ha : p a = true
      · rw [if_pos ha] at h
        exact ih c t h
      · rw [if_neg ha] at h
        obtain ⟨rfl, -⟩ := List.cons.inj h
        simpa using ha

/-- The leftmost label contains no dot and is followed by nothing or by
a dot. -/
theorem leftLabel_spec (s : String) :
    ∃ rest, s.data = (leftLabel s).data ++ rest ∧ ('.' ∉ (leftLabel s).data) ∧
      (rest = [] ∨ ∃ t, rest = '.' :: t) := by
  refine ⟨s.data.dropWhile (· ≠ '.'), ?_, ?_, ?_⟩
  · rw [leftLabel]
    exact (List.takeWhile_append_dropWhile (p := (· ≠ '.')) (l := s.data)).symm
  · intro hmem
    have := List.mem_takeWhile_imp (l := s.data) (p := (· ≠ '.')) hmem
    simp at this
  · cases hd : s.data.dropWhile (· ≠ '.') with
    | nil => exact Or.inl rfl
    | cons c t =>
        refine Or.inr ⟨t, ?_⟩
        have hc := dropWhile_eq_cons_false (p := (· ≠ '.')) s.data c t hd
        simp at hc
        rw [hc]

/-- C1, counterexample.  A node with xname `"n0"`, no `bmc_xname` and
`bmc_fqdn = "bmc07.cluster.example"`: step (b) trims `"n0"` to the
empty string and the function returns that empty string — it does not
fall through to the fqdn label `"bmc07"` as the claim states. -/
theorem claim_C1_counterexample :
    derive_bmc_xname (.str "n0") (.str "bmc07.cluster.example") .null = .str ""
    ∧ JVal.str "" ≠ .str "bmc07" := by
  constructor
  · decide
  · decide

/-- C1, amended: the derivation tries (a) `bmc_xname`, (b) the node's
`xname`, (c) `bmc_fqdn`, guarding each step only on the *input* being
non-empty; step (b)'s result is returned even when trimming yields the
empty string (no fall-through on an empty result).  The trim is
`re.sub(r"n\d+.*$", "", xname)`: at the leftmost position where an `n`
is followed by a Unicode decimal digit and no embedded newline lies
between the digit and the `$` anchor, the characters up to the anchor
are removed (so a single trailing newline survives); when no position
satisfies all of this — in particular when every `n`-digit occurrence
is followed by an embedded newline — the xname passes through
unchanged, embedded newlines included.  `leftLabel` is the dot-free
leftmost label of the fqdn.  The concrete equations exercise the three
regex subtleties: `$` and `.` stop at embedded newlines, a trailing
newline is preserved, and non-ASCII decimal digits match. -/
theorem claim_C1_amended :
    (∀ nx fq bx : Option String,
      derive_bmc_xname (jstr nx) (jstr fq) (jstr bx) =
        (if bx.getD "" ≠ "" then .str (bx.getD "")
         else if nx.getD "" ≠ "" then .str (trimN (nx.getD ""))
         else if fq.getD "" ≠ "" then .str (leftLabel (fq.getD ""))
         else .null))
    ∧ (∀ s : String, (∀ i, ¬ pyMatchAt s.data i) → trimN s = s)
    ∧ (∀ (s : String) (i : Nat), pyMatchAt s.data i →
        (∀ j, j < i → ¬ pyMatchAt s.data j) →
        (trimN s).data = s.data.take i ++ s.data.drop (dollarQ s.data))
    ∧ (∀ s : String, ∃ rest, s.data = (leftLabel s).data ++ rest ∧ ('.' ∉ (leftLabel s).data) ∧
        (rest = [] ∨ ∃ t, rest = '.' :: t))
    ∧ derive_bmc_xname (.str "x1000c0s0b0n0") .null .null = .str "x1000c0s0b0"
    ∧ trimN "x1n2\nz" = "x1n2\nz" ∧ trimN "n1\nx" = "n1\nx"
    ∧ trimN "n1\n" = "\n" ∧ trimN "n٥abc" = "" := by
  refine ⟨?_, ?_, ?_, leftLabel_spec, by decide, by decide, by decide, by decide, by decide⟩
  · intro nx fq bx
    cases nx <;> cases fq <;> cases bx <;>
      simp [derive_bmc_xname, jstr, truthy, Option.getD] <;>
      split_ifs <;> simp_all
  · intro s h
    have := trimNAux_of_none s.data h
    rw [trimN, this]
  · intro s i hi hmin
    have := trimNAux_of_min s.data i hi hmin
    rw [trimN, this]

/-- C1 witness: the amended derivation at concrete inputs. -/
theorem claim_C1_amended_witness :
    derive_bmc_xname (jstr (some "x1000c0s0b0n0")) (jstr none) (jstr none)
      = .str (trimN "x1000c0s0b0n0") := by
  have h := claim_C1_amended.1 (some "x1000c0s0b0n0") none none
  simpa using h

/-- Classification of `read_input` failures: always exit code 2; a
parse failure echoes the text of the parser's exception on stderr (so
its line count is `msgLines` of that text), the fixed capability
diagnostics are one line, and the auto path with PyYAML missing writes
two lines. -/
theorem read_input_error_cases (hY : Bool) (pJ pY : String → Except String JVal)
    (hint : InFmt) (raw : String) (c l : Nat)
    (h : read_input hY pJ pY hint raw = .error (c, l)) :
    c = 2 ∧
      ((∃ e, hint = .jsonF ∧ pJ raw = .error e ∧ l = msgLines e)
       ∨ (∃ e, hY = true ∧ pY raw = .error e ∧ l = msgLines e)
       ∨ (l = 1 ∧ hY = false ∧ hint = .yamlF)
       ∨ (l = 2 ∧ hY = false ∧ hint = .auto)) := by
  cases hint with
  | jsonF =>
      cases hpj : pJ raw with
      | ok v => rw [read_input, hpj] at h; exact absurd h (by simp)
      | error e =>
          rw [read_input, hpj] at h
          obtain ⟨rfl, rfl⟩ : 2 = c ∧ msgLines e = l := by
            simpa [Prod.ext_iff] using h
          exact ⟨rfl, Or.inl ⟨e, rfl, rfl, rfl⟩⟩
  | yamlF =>
      cases hY with
      | false =>
          rw [read_input, if_neg (by simp)] at h
          obtain ⟨rfl, rfl⟩ : 2 = c ∧ 1 = l := by simpa [Prod.ext_iff] using h
          exact ⟨rfl, Or.inr (Or.inr (Or.inl ⟨rfl, rfl, rfl⟩))⟩
      | true =>
          rw [read_input, if_pos rfl] at h
          cases hpy : pY raw with
          | ok v => rw [hpy] at h; exact absurd h (by simp)
          | error e =>
              rw [hpy] at h
              obtain ⟨rfl, rfl⟩ : 2 = c ∧ msgLines e = l := by simpa [Prod.ext_iff] using h
              exact ⟨rfl, Or.inr (Or.inl ⟨e, rfl, rfl, rfl⟩)⟩
  | auto =>
      cases hpj : pJ raw with
      | ok v => rw [read_input, hpj] at h; exact absurd h (by simp)
      | error e0 =>
          rw [read_input, hpj] at h
          cases hY with
          | false =>
              rw [if_neg (by simp)] at h
              obtain ⟨rfl, rfl⟩ : 2 = c ∧ 2 = l := by simpa [Prod.ext_iff] using h
              exact ⟨rfl, Or.inr (Or.inr (Or.inr ⟨rfl, rfl, rfl⟩))⟩
          | true =>
              rw [if_pos rfl] at h
              cases hpy : pY raw with
              | ok v => rw [hpy] at h; exact absurd h (by simp)
              | error e =>
                  rw [hpy] at h
                  obtain ⟨rfl, rfl⟩ : 2 = c ∧ msgLines e = l := by
                    simpa [Prod.ext_iff] using h
                  exact ⟨rfl, Or.inr (Or.inl ⟨e, rfl, rfl, rfl⟩)⟩

/-- C2, counterexample.  (i) A parsed `{}` (schema violation) gives
exit code 1, not 2: `raise SystemExit("...")` with a string argument
exits CPython with status 1.  (ii) With auto detection, non-JSON input
and no PyYAML, the diagnostic is two lines, not one.  The parser
oracles return what `json.loads` would on the given inputs (the JSON
exception text plays no role on the auto path, which discards it). -/
theorem claim_C2_counterexample :
    (main_run true (fun _ => .ok (.obj [])) (fun _ => .error "e") .auto .matchF "{}"
        = RunOut.mk 1 none 1 ∧ (1 : Nat) ≠ 2)
    ∧ (main_run false (fun _ => .error "Expecting value: line 1 column 1 (char 0)")
          (fun _ => .error "e") .auto .matchF "not json"
        = RunOut.mk 2 none 2 ∧ (2 : Nat) ≠ 1) := by
  exact ⟨⟨rfl, by decide⟩, ⟨rfl, by decide⟩⟩

/-- C2, amended: a parse failure exits with code 2, echoing the
parser's exception text to stderr — one line plus however many
newlines that text contains, and PyYAML's `MarkedYAMLError` texts span
several lines; a missing-YAML-capability failure exits with code 2 and
a fixed one-line diagnostic (two lines on the auto path with PyYAML
missing); a schema violation (document not a mapping, or no `nodes`
sequence) exits with code 1 and a one-line diagnostic, because
`raise SystemExit("msg")` exits CPython with status 1; every failure
writes nothing to stdout; a successful run exits 0 with the converted
document on stdout and nothing on stderr. -/
theorem claim_C2_amended (haveYaml : Bool) (pJ pY : String → Except String JVal)
    (hint : InFmt) (ofmt : OutFmt) (raw : String) :
    let r := main_run haveYaml pJ pY hint ofmt raw
    (r.exitCode = 0 ∧ r.stdoutDoc.isSome = true ∧ r.stderrLines = 0)
    ∨ (r.exitCode = 2 ∧ r.stdoutDoc = none ∧
        ((∃ e, (pJ raw = .error e ∨ pY raw = .error e) ∧ r.stderrLines = msgLines e)
         ∨ (haveYaml = false ∧ r.stderrLines = 1)
         ∨ (haveYaml = false ∧ hint = .auto ∧ r.stderrLines = 2)))
    ∨ (r.exitCode = 1 ∧ r.stdoutDoc = none ∧ r.stderrLines = 1 ∧
        ∃ f d e, read_input haveYaml pJ pY hint raw = .ok (f, d) ∧ convert d = .error e) := by
  intro r
  show (_ ∨ _ ∨ _)
  cases hri : read_input haveYaml pJ pY hint raw with
  | error cl =>
      obtain ⟨c, l⟩ := cl
      obtain ⟨rfl, hl⟩ := read_input_error_cases haveYaml pJ pY hint raw c l hri
      refine Or.inr (Or.inl ?_)
      have hr : r = RunOut.mk 2 none l := by
        show main_run haveYaml pJ pY hint ofmt raw = _
        rw [main_run, hri]
      refine ⟨by rw [hr], by rw [hr], ?_⟩
      rcases hl with ⟨e, -, hpj, hle⟩ | ⟨e, -, hpy, hle⟩ | ⟨hle, hy, -⟩ | ⟨hle, hy, ha⟩
      · exact Or.inl ⟨e, Or.inl hpj, by rw [hr, hle]⟩
      · exact Or.inl ⟨e, Or.inr hpy, by rw [hr, hle]⟩
      · exact Or.inr (Or.inl ⟨hy, by rw [hr, hle]⟩)
      · exact Or.inr (Or.inr ⟨hy, ha, by rw [hr, hle]⟩)
  | ok fd =>
      obtain ⟨f, d⟩ := fd
      cases hc : convert d with
      | error e =>
          refine Or.inr (Or.inr ?_)
          have hr : r = RunOut.mk 1 none 1 := by
            show main_run haveYaml pJ pY hint ofmt raw = _
            rw [main_run, hri]
            dsimp only
            rw [hc]
          exact ⟨by rw [hr], by rw [hr], by rw [hr], f, d, e, rfl, hc⟩
      | ok doc =>
          have hr : r = (match (match ofmt with
              | .matchF => f | .jsonF => Fmt.json | .yamlF => Fmt.yaml) with
            | Fmt.json => RunOut.mk 0 (some doc) 0
            | Fmt.yaml => if haveYaml then RunOut.mk 0 (some doc) 0
                else RunOut.mk 2 none 1) := by
            show main_run haveYaml pJ pY hint ofmt raw = _
            rw [main_run, hri]
            dsimp only
            rw [hc]
          cases hf : (match ofmt with
              | .matchF => f | .jsonF => Fmt.json | .yamlF => Fmt.yaml) with
          | json =>
              rw [hf] at hr
              dsimp only at hr
              exact Or.inl ⟨by simp [hr], by simp [hr], by simp [hr]⟩
          | yaml =>
              rw [hf] at hr
              dsimp only at hr
              cases haveYaml with
              | true =>
                  rw [if_pos rfl] at hr
                  exact Or.inl ⟨by simp [hr], by simp [hr], by simp [hr]⟩
              | false =>
                  rw [if_neg (by simp)] at hr
                  exact Or.inr (Or.inl ⟨by simp [hr], by simp [hr],
                    Or.inr (Or.inl ⟨rfl, by simp [hr]⟩)⟩)

/-- C2 witness: a concrete successful run exits 0 with output. -/
theorem claim_C2_amended_witness :
    (main_run true (fun _ => .ok (.obj [("nodes", .arr [])])) (fun _ => .error "e")
        .auto .matchF "x").exitCode = 0 := by
  have h := claim_C2_amended true (fun _ => .ok (.obj [("nodes", .arr [])]))
    (fun _ => .error "e") .auto .matchF "x"
  simp only at h
  rcases h with ⟨h0, -, -⟩ | ⟨h2, -, -⟩ | ⟨h1, -, -, -⟩
  · exact h0
  · exact absurd h2 (by decide)
  · exact absurd h1 (by decide)

namespace Obj

theorem dget_nil (k : String) : Obj.dget [] k = none := rfl

theorem dget_cons (e : String × JVal) (d : Obj) (k : String) :
    Obj.dget (e :: d) k = if e.1 == k then some e.2 else Obj.dget d k := by
  rw [Obj.dget, List.find?]
  by_cases h : e.1 == k
  · rw [h]; simp [h]
  · simp only [Bool.not_eq_true] at h
    rw [h]; simp [h, Obj.dget]

theorem hasKey_iff_dget (d : Obj) (k : String) :
    d.hasKey k = (d.dget k).isSome := by
  induction d with
  | nil => rfl
  | cons e d ih =>
      rw [Obj.hasKey, List.any_cons, dget_cons]
      by_cases h : e.1 == k
      · simp [h]
      · simp only [Bool.not_eq_true] at h
        simp [h, ← ih, Obj.hasKey]

theorem dget_dpop_ne (d : Obj) (k k' : String) (h : k' ≠ k) :
    (d.dpop k).dget k' = d.dget k' := by
  induction d with
  | nil => rfl
  | cons e d ih =>
      rw [Obj.dpop, List.filter]
      by_cases he : e.1 == k
      · have hk : (e.1 != k) = false := by simp [bne]; simpa using he
        rw [hk]
        rw [dget_cons]
        have : (e.1 == k') = false := by
          simp only [beq_iff_eq] at he ⊢
          simp [he]
          exact fun hc => h hc.symm
        rw [this]
        simpa [Obj.dpop] using ih
      · have hk : (e.1 != k) = true := by simp [bne]; simpa using he
        rw [hk, dget_cons, dget_cons]
        by_cases hk' : e.1 == k'
        · simp [hk']
        · simp only [Bool.not_eq_true] at hk'
          simp [hk']
          simpa [Obj.dpop] using ih

theorem dget_dpop_self (d : Obj) (k : String) :
    (d.dpop k).dget k = none := by
  induction d with
  | nil => rfl
  | cons e d ih =>
      rw [Obj.dpop, List.filter]
      by_cases he : e.1 == k
      · have hk : (e.1 != k) = false := by simp [bne]; simpa using he
        rw [hk]
        simpa [Obj.dpop] using ih
      · have hk : (e.1 != k) = true := by simp [bne]; simpa using he
        rw [hk, dget_cons]
        have : (e.1 == k) = false := by simpa using he
        rw [this]
        simpa [Obj.dpop] using ih

theorem dget_append (d1 d2 : Obj) (k : String) :
    (d1 ++ d2).dget k = match d1.dget k with
      | some v => some v
      | none => d2.dget k := by
  induction d1 with
  | nil => simp [dget_nil]
  | cons e d ih =>
      rw [List.cons_append, dget_cons, dget_cons]
      by_cases he : e.1 == k
      · simp [he]
      · simp only [Bool.not_eq_true] at he
        simp [he, ih]

theorem dget_map_replace_self (d : Obj) (k : String) (v : JVal)
    (hk : d.hasKey k = true) :
    Obj.dget (d.map (fun e => if e.1 == k then (k, v) else e)) k = some v := by
  induction d with
  | nil => simp [Obj.hasKey] at hk
  | cons e d ih =>
      rw [List.map_cons]
      by_cases he : e.1 == k
      · rw [if_pos he, dget_cons]
        simp
      · rw [if_neg he, dget_cons]
        simp only [Bool.not_eq_true] at he
        rw [he]
        simp only [Bool.false_eq_true, if_false]
        apply ih
        rw [Obj.hasKey, List.any_cons, he] at hk
        simpa [Obj.hasKey] using hk

theorem dget_map_replace_ne (d : Obj) (k k' : String) (v : JVal) (h : k' ≠ k) :
    Obj.dget (d.map (fun e => if e.1 == k then (k, v) else e)) k' = d.dget k' := by
  induction d with
  | nil => rfl
  | cons e d ih =>
      rw [List.map_cons]
      by_cases he : e.1 == k
      · rw [if_pos he, dget_cons, dget_cons]
        simp only [beq_iff_eq] at he
        have h1 : (k == k') = false := beq_eq_false_iff_ne.2 (fun hc => h hc.symm)
        have h2 : (e.1 == k') = false := by
          rw [he]
          exact beq_eq_false_iff_ne.2 (fun hc => h hc.symm)
        rw [h1, h2]
        simp only [Bool.false_eq_true, if_false]
        exact ih
      · rw [if_neg he, dget_cons, dget_cons]
        by_cases hk' : e.1 == k'
        · simp [hk']
        · simp only [Bool.not_eq_true] at hk'
          rw [hk']
          simp only [Bool.false_eq_true, if_false]
          exact ih

theorem dget_dset_self (d : Obj) (k : String) (v : JVal) :
    (d.dset k v).dget k = some v := by
  rw [Obj.dset]
  by_cases h : d.hasKey k
  · rw [if_pos h]
    exact dget_map_replace_self d k v h
  · rw [if_neg h, dget_append]
    have hnone : d.dget k = none := by
      rw [hasKey_iff_dget] at h
      cases hdg : d.dget k with
      | none => rfl
      | some w => rw [hdg] at h; simp at h
    rw [hnone]
    simp [dget_cons]

theorem dget_dset_ne (d : Obj) (k k' : String) (v : JVal) (h : k' ≠ k) :
    (d.dset k v).dget k' = d.dget k' := by
  rw [Obj.dset]
  by_cases hk : d.hasKey k
  · rw [if_pos hk]
    exact dget_map_replace_ne d k k' v h
  · rw [if_neg hk, dget_append]
    cases hdg : d.dget k' with
    | some w => rfl
    | none =>
        rw [dget_cons, dget_nil]
        have : (k == k') = false := beq_eq_false_iff_ne.2 (fun hc => h hc.symm)
        rw [this]
        simp

end Obj

section DedupLemmas

theorem mem_dedupAux (seen : List String) (xs : List String) (a : String) :
    a ∈ dedupAux seen xs ↔ a ∈ xs ∧ a ∉ seen := by
  induction xs generalizing seen with
  | nil => simp [dedupAux]
  | cons x xs ih =>
      rw [dedupAux]
      by_cases hx : x ∈ seen
      · rw [if_pos hx, ih]
        constructor
        · rintro ⟨h1, h2⟩
          exact ⟨List.mem_cons_of_mem x h1, h2⟩
        · rintro ⟨h1, h2⟩
          rcases List.mem_cons.1 h1 with rfl | h1
          · exact absurd hx h2
          · exact ⟨h1, h2⟩
      · rw [if_neg hx]
        rw [List.mem_cons, ih]
        constructor
        · rintro (rfl | ⟨h1, h2⟩)
          · exact ⟨List.mem_cons_self _ _, hx⟩
          · refine ⟨List.mem_cons_of_mem x h1, ?_⟩
            intro hc
            exact h2 (List.mem_cons_of_mem x hc)
        · rintro ⟨h1, h2⟩
          rcases List.mem_cons.1 h1 with rfl | h1
          · exact Or.inl rfl
          · by_cases hax : a = x
            · exact Or.inl hax
            · refine Or.inr ⟨h1, ?_⟩
              intro hc
              rcases List.mem_cons.1 hc with h | h
              · exact hax h
              · exact h2 h

theorem nodup_dedupAux (seen : List String) (xs : List String) :
    (dedupAux seen xs).Nodup := by
  induction xs generalizing seen with
  | nil => exact List.nodup_nil
  | cons x xs ih =>
      rw [dedupAux]
      by_cases hx : x ∈ seen
      · rw [if_pos hx]; exact ih seen
      · rw [if_neg hx]
        refine List.nodup_cons.2 ⟨?_, ih (x :: seen)⟩
        intro hc
        exact ((mem_dedupAux (x :: seen) xs x).1 hc).2 (List.mem_cons_self _ _)

theorem sublist_dedupAux (seen : List String) (xs : List String) :
    (dedupAux seen xs).Sublist xs := by
  induction xs generalizing seen with
  | nil => exact List.Sublist.refl _
  | cons x xs ih =>
      rw [dedupAux]
      by_cases hx : x ∈ seen
      · rw [if_pos hx]
        exact (ih seen).cons x
      · rw [if_neg hx]
        exact (ih (x :: seen)).cons₂ x

theorem indexOf_dedupAux (seen : List String) (xs : List String) (a b : String)
    (ha : a ∈ dedupAux seen xs) (hb : b ∈ dedupAux seen xs) (hab : a ≠ b) :
    (List.indexOf a xs < List.indexOf b xs
      ↔ List.indexOf a (dedupAux seen xs) < List.indexOf b (dedupAux seen xs)) := by
  induction xs generalizing seen with
  | nil => simp [dedupAux] at ha
  | cons x xs ih =>
      rw [dedupAux] at ha hb ⊢
      by_cases hx : x ∈ seen
      · rw [if_pos hx] at ha hb ⊢
        have hax : a ≠ x := by
          rintro rfl
          exact ((mem_dedupAux seen xs a).1 ha).2 hx
        have hbx : b ≠ x := by
          rintro rfl
          exact ((mem_dedupAux seen xs b).1 hb).2 hx
        rw [List.indexOf_cons_ne _ (Ne.symm hax),
            List.indexOf_cons_ne _ (Ne.symm hbx)]
        rw [Nat.succ_lt_succ_iff]
        exact ih seen ha hb
      · rw [if_neg hx] at ha hb ⊢
        by_cases hax : a = x
        · subst hax
          have hbtail : b ∈ dedupAux (a :: seen) xs := by
            rcases List.mem_cons.1 hb with h | h
            · exact absurd h.symm hab
            · exact h
          have hbxs : b ∈ xs := ((mem_dedupAux (a :: seen) xs b).1 hbtail).1
          rw [List.indexOf_cons_self, List.indexOf_cons_self,
              List.indexOf_cons_ne _ hab,
              List.indexOf_cons_ne _ hab]
          simp
        · by_cases hbx : b = x
          · subst hbx
            have hatail : a ∈ dedupAux (b :: seen) xs := by
              rcases List.mem_cons.1 ha with h | h
              · exact absurd h hab
              · exact h
            rw [List.indexOf_cons_self, List.indexOf_cons_self,
                List.indexOf_cons_ne _ (Ne.symm hab),
                List.indexOf_cons_ne _ (Ne.symm hab)]
            simp
          · have hatail : a ∈ dedupAux (x :: seen) xs := by
              rcases List.mem_cons.1 ha with h | h
              · exact absurd h hax
              · exact h
            have hbtail : b ∈ dedupAux (x :: seen) xs := by
              rcases List.mem_cons.1 hb with h | h
              · exact absurd h hbx
              · exact h
            rw [List.indexOf_cons_ne _ (Ne.symm hax),
                List.indexOf_cons_ne _ (Ne.symm hbx),
                List.indexOf_cons_ne _ (Ne.symm hax),
                List.indexOf_cons_ne _ (Ne.symm hbx)]
            rw [Nat.succ_lt_succ_iff, Nat.succ_lt_succ_iff]
            exact ih (x :: seen) hatail hbtail

end DedupLemmas

/-- The `groups` value stored by `normalize_groups`: deduplicated when a
non-null `groups` key was present, the raw accumulated seed otherwise. -/
theorem normalize_groups_dget (node : Obj) :
    Obj.dget (normalize_groups node) "groups" =
      some (if node.hasKey "groups" = true ∧ node.dgetD "groups" ≠ .null
        then listOrNull (dedupFirst (groupSeed node ++ groupsContrib node))
        else listOrNull (groupSeed node)) := by
  have hne : ("groups" : String) ≠ "group" := by decide
  simp only [normalize_groups]
  by_cases hg : (node.hasKey "group" = true ∧ node.dgetD "group" ≠ .null)
  · rw [if_pos hg]
    have h1 : (node.dpop "group").hasKey "groups" = node.hasKey "groups" := by
      rw [Obj.hasKey_iff_dget, Obj.hasKey_iff_dget, Obj.dget_dpop_ne _ _ _ hne]
    have h2 : (node.dpop "group").dgetD "groups" = node.dgetD "groups" := by
      rw [Obj.dgetD, Obj.dgetD, Obj.dget_dpop_ne _ _ _ hne]
    have h3 : groupsContrib (node.dpop "group") = groupsContrib node := by
      rw [groupsContrib, groupsContrib, h2]
    by_cases hgs : (node.hasKey "groups" = true ∧ node.dgetD "groups" ≠ .null)
    · rw [if_pos (by rw [h1, h2]; exact hgs), if_pos hgs, h3, Obj.dget_dset_self]
    · rw [if_neg (by rw [h1, h2]; exact hgs), if_neg hgs, Obj.dget_dset_self]
  · rw [if_neg hg]
    by_cases hgs : (node.hasKey "groups" = true ∧ node.dgetD "groups" ≠ .null)
    · rw [if_pos hgs, if_pos hgs, Obj.dget_dset_self]
    · rw [if_neg hgs, if_neg hgs, Obj.dget_dset_self]

/-- C3, counterexample.  A node with `group: ["A", "A"]` and no `groups`
key: the deduplication runs only in the branch where a non-null `groups`
key exists, so the output `groups` is `["A", "A"]` — a present, non-null
`groups` value with a duplicate. -/
theorem claim_C3_counterexample :
    convert (.obj [("nodes", .arr [.obj [("group", .arr [.str "A", .str "A"])]])])
      = .ok (.obj [("bmcs", .arr []),
                   ("nodes", .arr [.obj [("groups", .arr [.str "A", .str "A"])]])])
    ∧ ¬ ([JVal.str "A", JVal.str "A"].Nodup) := by
  exact ⟨by decide, by decide⟩

/-- C3, amended: when the node has a `groups` key with a non-null value,
the output `groups` is the accumulated `group`/`groups` values
deduplicated preserving first occurrence (no duplicates, a sublist of
the accumulation with the same members, ordered by first occurrence);
when the node has no such key, the accumulated `group` values are
emitted without deduplication (so duplicates inside a `group` sequence
survive). -/
theorem claim_C3_amended (node : Obj) :
    ((node.hasKey "groups" = true ∧ node.dgetD "groups" ≠ .null) →
      Obj.dgetD (normalize_groups node) "groups"
          = listOrNull (dedupFirst (groupSeed node ++ groupsContrib node))
        ∧ (dedupFirst (groupSeed node ++ groupsContrib node)).Nodup
        ∧ (dedupFirst (groupSeed node ++ groupsContrib node)).Sublist
            (groupSeed node ++ groupsContrib node)
        ∧ (∀ a, a ∈ dedupFirst (groupSeed node ++ groupsContrib node)
              ↔ a ∈ groupSeed node ++ groupsContrib node)
        ∧ (∀ a b, a ∈ dedupFirst (groupSeed node ++ groupsContrib node)
              → b ∈ dedupFirst (groupSeed node ++ groupsContrib node) → a ≠ b →
            (List.indexOf a (groupSeed node ++ groupsContrib node)
                < List.indexOf b (groupSeed node ++ groupsContrib node)
              ↔ List.indexOf a (dedupFirst (groupSeed node ++ groupsContrib node))
                < List.indexOf b (dedupFirst (groupSeed node ++ groupsContrib node)))))
    ∧ (¬ (node.hasKey "groups" = true ∧ node.dgetD "groups" ≠ .null) →
      Obj.dgetD (normalize_groups node) "groups" = listOrNull (groupSeed node)) := by
  constructor
  · intro h
    refine ⟨?_, nodup_dedupAux [] _, sublist_dedupAux [] _, ?_, ?_⟩
    · rw [Obj.dgetD, normalize_groups_dget, if_pos h]
      rfl
    · intro a
      rw [dedupFirst, mem_dedupAux]
      simp
    · intro a b ha hb hab
      exact indexOf_dedupAux [] _ a b ha hb hab
  · intro h
    rw [Obj.dgetD, normalize_groups_dget, if_neg h]
    rfl

/-- C3 witness: the spec's own groups-dedup example, node with
`group: "A"` and `groups: ["A", "B"]` yields `["A", "B"]`. -/
theorem claim_C3_amended_witness :
    Obj.dgetD (normalize_groups [("group", .str "A"), ("groups", .arr [.str "A", .str "B"])])
        "groups" = .arr [.str "A", .str "B"] := by
  have h := (claim_C3_amended [("group", .str "A"), ("groups", .arr [.str "A", .str "B"])]).1
    (by decide)
  rw [h.1]
  decide

section KVLemmas

theorem kfind_nil (k : BmcKey) : kfind [] k = none := rfl

theorem kfind_cons (e : BmcKey × BmcRec) (d : BmcDict) (k : BmcKey) :
    kfind (e :: d) k = if e.1 == k then some e.2 else kfind d k := by
  rw [kfind, List.find?]
  by_cases h : e.1 == k
  · rw [h]; simp [h]
  · simp only [Bool.not_eq_true] at h
    rw [h]; simp [h, kfind]

theorem kany_iff_kfind (d : BmcDict) (k : BmcKey) :
    d.any (fun e => e.1 == k) = (kfind d k).isSome := by
  induction d with
  | nil => rfl
  | cons e d ih =>
      rw [List.any_cons, kfind_cons]
      by_cases h : e.1 == k
      · simp [h]
      · simp only [Bool.not_eq_true] at h
        simp [h, ← ih]

theorem kfind_append (d1 d2 : BmcDict) (k : BmcKey) :
    kfind (d1 ++ d2) k = match kfind d1 k with
      | some v => some v
      | none => kfind d2 k := by
  induction d1 with
  | nil => simp [kfind_nil]
  | cons e d ih =>
      rw [List.cons_append, kfind_cons, kfind_cons]
      by_cases he : e.1 == k
      · simp [he]
      · simp only [Bool.not_eq_true] at he
        simp [he, ih]

theorem kfind_map_replace_self (d : BmcDict) (k : BmcKey) (r : BmcRec)
    (hk : d.any (fun e => e.1 == k) = true) :
    kfind (d.map (fun e => if e.1 == k then (k, r) else e)) k = some r := by
  induction d with
  | nil => simp at hk
  | cons e d ih =>
      rw [List.map_cons]
      by_cases he : e.1 == k
      · rw [if_pos he, kfind_cons]
        simp
      · rw [if_neg he, kfind_cons]
        simp only [Bool.not_eq_true] at he
        rw [he]
        simp only [Bool.false_eq_true, if_false]
        apply ih
        rw [List.any_cons, he] at hk
        simpa using hk

theorem kfind_map_replace_ne (d : BmcDict) (k k' : BmcKey) (r : BmcRec) (h : k' ≠ k) :
    kfind (d.map (fun e => if e.1 == k then (k, r) else e)) k' = kfind d k' := by
  induction d with
  | nil => rfl
  | cons e d ih =>
      rw [List.map_cons]
      by_cases he : e.1 == k
      · rw [if_pos he, kfind_cons, kfind_cons]
        simp only [beq_iff_eq] at he
        have h1 : (k == k') = false := beq_eq_false_iff_ne.2 (fun hc => h hc.symm)
        have h2 : (e.1 == k') = false := by
          rw [he]
          exact beq_eq_false_iff_ne.2 (fun hc => h hc.symm)
        rw [h1, h2]
        simp only [Bool.false_eq_true, if_false]
        exact ih
      · rw [if_neg he, kfind_cons, kfind_cons]
        by_cases hk' : e.1 == k'
        · simp [hk']
        · simp only [Bool.not_eq_true] at hk'
          rw [hk']
          simp only [Bool.false_eq_true, if_false]
          exact ih

theorem kfind_kset_self (d : BmcDict) (k : BmcKey) (r : BmcRec) :
    kfind (kset d k r) k = some r := by
  rw [kset]
  by_cases h : d.any (fun e => e.1 == k) = true
  · rw [if_pos h]
    exact kfind_map_replace_self d k r h
  · rw [if_neg h, kfind_append]
    have hnone : kfind d k = none := by
      rw [kany_iff_kfind] at h
      cases hdg : kfind d k with
      | none => rfl
      | some w => rw [hdg] at h; simp at h
    rw [hnone]
    simp [kfind_cons]

theorem kfind_kset_ne (d : BmcDict) (k k' : BmcKey) (r : BmcRec) (h : k' ≠ k) :
    kfind (kset d k r) k' = kfind d k' := by
  rw [kset]
  by_cases hk : d.any (fun e => e.1 == k) = true
  · rw [if_pos hk]
    exact kfind_map_replace_ne d k k' r h
  · rw [if_neg hk, kfind_append]
    cases hdg : kfind d k' with
    | some w => rfl
    | none =>
        rw [kfind_cons, kfind_nil]
        have : (k == k') = false := beq_eq_false_iff_ne.2 (fun hc => h hc.symm)
        rw [this]
        simp

theorem keys_map_replace (d : BmcDict) (k : BmcKey) (r : BmcRec) :
    (d.map (fun e => if e.1 == k then (k, r) else e)).map (fun e => e.1)
      = d.map (fun e => e.1) := by
  induction d with
  | nil => rfl
  | cons e d ih =>
      rw [List.map_cons, List.map_cons, List.map_cons]
      by_cases he : e.1 == k
      · rw [if_pos he]
        simp only [beq_iff_eq] at he
        rw [ih]
        simp [he]
      · rw [if_neg he, ih]

theorem not_mem_keys_of_kfind_none (d : BmcDict) (k : BmcKey)
    (h : kfind d k = none) : k ∉ d.map (fun e => e.1) := by
  induction d with
  | nil => simp
  | cons e d ih =>
      rw [kfind_cons] at h
      by_cases he : e.1 == k
      · rw [if_pos he] at h; exact absurd h (by simp)
      · simp only [Bool.not_eq_true] at he
        rw [he] at h
        simp only [Bool.false_eq_true, if_false] at h
        rw [List.map_cons, List.mem_cons]
        rintro (rfl | hm)
        · simp at he
        · exact ih h hm

theorem nodup_keys_kset (d : BmcDict) (k : BmcKey) (r : BmcRec)
    (h : (d.map (fun e => e.1)).Nodup) :
    ((kset d k r).map (fun e => e.1)).Nodup := by
  rw [kset]
  by_cases hk : d.any (fun e => e.1 == k) = true
  · rw [if_pos hk, keys_map_replace]
    exact h
  · rw [if_neg hk, List.map_append]
    have hnone : kfind d k = none := by
      rw [kany_iff_kfind] at hk
      cases hdg : kfind d k with
      | none => rfl
      | some w => rw [hdg] at hk; simp at hk
    have hnm := not_mem_keys_of_kfind_none d k hnone
    rw [List.nodup_append]
    exact ⟨h, List.nodup_singleton k, by simpa using hnm⟩

theorem mem_of_kfind_some (d : BmcDict) (k : BmcKey) (r : BmcRec)
    (h : kfind d k = some r) : (k, r) ∈ d := by
  induction d with
  | nil => simp [kfind_nil] at h
  | cons e d ih =>
      rw [kfind_cons] at h
      by_cases he : e.1 == k
      · rw [if_pos he] at h
        simp only [Option.some.injEq] at h
        simp only [beq_iff_eq] at he
        have he2 : e = (k, r) := by
          obtain ⟨e1, e2⟩ := e
          simp only at he h
          rw [he, h]
        rw [he2]
        exact List.mem_cons_self _ _
      · simp only [Bool.not_eq_true] at he
        rw [he] at h
        simp only [Bool.false_eq_true, if_false] at h
        exact List.mem_cons_of_mem e (ih h)

theorem kfind_of_mem (d : BmcDict) (e : BmcKey × BmcRec)
    (hnd : (d.map (fun x => x.1)).Nodup) (he : e ∈ d) :
    kfind d e.1 = some e.2 := by
  induction d with
  | nil => simp at he
  | cons f d ih =>
      rw [List.map_cons, List.nodup_cons] at hnd
      rw [kfind_cons]
      rcases List.mem_cons.1 he with rfl | hm
      · simp
      · have hne : (f.1 == e.1) = false := by
          refine beq_eq_false_iff_ne.2 ?_
          intro hc
          exact hnd.1 (hc ▸ List.mem_map_of_mem (fun x => x.1) hm)
        rw [hne]
        simp only [Bool.false_eq_true, if_false]
        exact ih hnd.2 hm

theorem countP_key_eq (d : BmcDict) (k : BmcKey)
    (hnd : (d.map (fun x => x.1)).Nodup) :
    d.countP (fun e => e.1 == k) = if (kfind d k).isSome then 1 else 0 := by
  induction d with
  | nil => simp [kfind_nil]
  | cons e d ih =>
      rw [List.map_cons, List.nodup_cons] at hnd
      rw [List.countP_cons, kfind_cons]
      by_cases he : e.1 == k
      · rw [he]
        have hk : kfind d k = none := by
          cases hf : kfind d k with
          | none => rfl
          | some r =>
              exfalso
              have hm := mem_of_kfind_some d k r hf
              simp only [beq_iff_eq] at he
              exact hnd.1 (he ▸ List.mem_map_of_mem (fun x => x.1) hm)
        rw [ih hnd.2, hk]
        simp
      · simp only [Bool.not_eq_true] at he
        rw [he, ih hnd.2]
        simp

end KVLemmas

section FoldDecomposition

theorem dget_stripBmc_xname (raw : Obj) :
    (stripBmc raw).dget "xname" = raw.dget "xname" := by
  rw [stripBmc,
      Obj.dget_dpop_ne _ _ _ (by decide),
      Obj.dget_dpop_ne _ _ _ (by decide),
      Obj.dget_dpop_ne _ _ _ (by decide),
      Obj.dget_dpop_ne _ _ _ (by decide)]

/-- `normalize_groups` is a conditional `group` pop followed by a
`groups` set. -/
theorem normalize_groups_shape (node : Obj) :
    ∃ w, normalize_groups node
      = (if node.hasKey "group" = true ∧ node.dgetD "group" ≠ .null
          then node.dpop "group" else node).dset "groups" w := by
  simp only [normalize_groups]
  by_cases hg : (node.hasKey "group" = true ∧ node.dgetD "group" ≠ .null)
  · rw [if_pos hg]
    by_cases hgs : ((node.dpop "group").hasKey "groups" = true
        ∧ (node.dpop "group").dgetD "groups" ≠ .null)
    · rw [if_pos hgs]
      exact ⟨_, rfl⟩
    · rw [if_neg hgs]
      exact ⟨_, rfl⟩
  · rw [if_neg hg]
    by_cases hgs : (node.hasKey "groups" = true ∧ node.dgetD "groups" ≠ .null)
    · rw [if_pos hgs]
      exact ⟨_, rfl⟩
    · rw [if_neg hgs]
      exact ⟨_, rfl⟩

theorem dget_normalize_ne (node : Obj) (k : String)
    (h1 : k ≠ "groups") (h2 : k ≠ "group") :
    (normalize_groups node).dget k = node.dget k := by
  obtain ⟨w, hw⟩ := normalize_groups_shape node
  rw [hw, Obj.dget_dset_ne _ _ _ _ h1]
  by_cases hg : (node.hasKey "group" = true ∧ node.dgetD "group" ≠ .null)
  · rw [if_pos hg, Obj.dget_dpop_ne _ _ _ h2]
  · rw [if_neg hg]

theorem nodeDerived_in_step (raw : Obj) :
    derive_bmc_xname (Obj.dgetD (normalize_groups (stripBmc raw)) "xname")
      (bmcValsOf raw).fqdn (bmcValsOf raw).xn = nodeDerived raw := by
  have h : (normalize_groups (stripBmc raw)).dget "xname" = raw.dget "xname" := by
    rw [dget_normalize_ne _ _ (by decide) (by decide), dget_stripBmc_xname]
  rw [nodeDerived, Obj.dgetD, Obj.dgetD, h]
  rfl

theorem stepNode_obj (st : ConvSt) (raw : Obj) :
    stepNode st (.obj raw)
      = ConvSt.mk (stepBmcs st.bmcs raw) (st.nodes ++ [procNode raw]) := by
  simp only [stepNode, stepBmcs, procNode, nodeDerived_in_step]
  by_cases hc : (truthy (bmcValsOf raw).mac || truthy (bmcValsOf raw).ip
      || truthy (bmcValsOf raw).fqdn || truthy (bmcValsOf raw).xn
      || truthy (nodeDerived raw)) = true
  · rw [if_pos hc, if_pos hc]
  · rw [if_neg hc, if_neg hc]
    have hbx : truthy (nodeDerived raw) = false := by
      cases hnb : truthy (nodeDerived raw) with
      | false => rfl
      | true =>
          exfalso
          apply hc
          rw [hnb]
          simp
    rw [hbx]
    simp

theorem foldl_stepNode_decomp (l : List JVal) :
    ∀ st : ConvSt, List.foldl stepNode st l
      = ConvSt.mk (List.foldl stepBmcs st.bmcs (objsOf l))
                  (st.nodes ++ (objsOf l).map procNode) := by
  induction l with
  | nil =>
      intro st
      cases st
      simp [objsOf]
  | cons v l ih =>
      intro st
      cases v with
      | obj raw =>
          rw [List.foldl_cons, stepNode_obj, ih]
          have hobjs : objsOf (JVal.obj raw :: l) = raw :: objsOf l := by
            simp [objsOf]
          rw [hobjs]
          simp [List.append_assoc]
      | null => rw [List.foldl_cons]; exact ih st
      | bool b => rw [List.foldl_cons]; exact ih st
      | num n => rw [List.foldl_cons]; exact ih st
      | str t => rw [List.foldl_cons]; exact ih st
      | arr xs => rw [List.foldl_cons]; exact ih st

theorem foldNodes_eq (l : List JVal) :
    foldNodes l = ConvSt.mk (List.foldl stepBmcs [] (objsOf l))
      ((objsOf l).map procNode) := by
  rw [foldNodes, foldl_stepNode_decomp]
  rfl

end FoldDecomposition

section InvariantHelpers

theorem find?_append2 {a : Type} (p : a → Bool) (l1 l2 : List a) :
    (l1 ++ l2).find? p = match l1.find? p with
      | some v => some v
      | none => l2.find? p := by
  induction l1 with
  | nil => simp
  | cons x l ih =>
      rw [List.cons_append]
      cases hx : p x with
      | true => simp [List.find?, hx]
      | false => simp [List.find?, hx, ih]

theorem firstT_append_single (os : List Obj) (raw : Obj) (fld : String) :
    firstT (os ++ [raw]) fld = match firstT os fld with
      | some v => some v
      | none => if truthy (Obj.dgetD raw fld) = true
          then some (Obj.dgetD raw fld) else none := by
  rw [firstT, List.map_append, find?_append2, firstT]
  cases hf : (os.map (fun o => Obj.dgetD o fld)).find? truthy with
  | some v => rfl
  | none =>
      dsimp only
      rw [List.map_singleton]
      cases ht : truthy (Obj.dgetD raw fld) with
      | true => simp [List.find?, ht]
      | false => simp [List.find?, ht]

theorem firstT_some_truthy (os : List Obj) (fld : String) (v : JVal)
    (h : firstT os fld = some v) : truthy v = true :=
  List.find?_some h

theorem relevant_append_single (os : List Obj) (raw : Obj) (x : JVal) :
    relevant (os ++ [raw]) x
      = relevant os x ++ (if nodeDerived raw == x then [raw] else []) := by
  rw [relevant, relevant, List.filter_append]
  congr 1
  cases h : nodeDerived raw == x with
  | true => simp [List.filter, h]
  | false => simp [List.filter, h]

theorem relevant_append_single_ne (os : List Obj) (raw : Obj) (x : JVal)
    (h : nodeDerived raw ≠ x) :
    relevant (os ++ [raw]) x = relevant os x := by
  rw [relevant_append_single]
  rw [if_neg (by simpa using h)]
  simp

theorem mergeRec_xname (r : BmcRec) (bx : JVal) (bv : BmcVals) :
    (mergeRec r bx bv).xname
      = if truthy bx = true ∧ ¬ otruthy r.xname = true then some bx else r.xname := rfl

theorem mergeRec_mac (r : BmcRec) (bx : JVal) (bv : BmcVals) :
    (mergeRec r bx bv).mac
      = if truthy bv.mac = true ∧ ¬ otruthy r.mac = true then some bv.mac else r.mac := rfl

theorem mergeRec_ip (r : BmcRec) (bx : JVal) (bv : BmcVals) :
    (mergeRec r bx bv).ip
      = if truthy bv.ip = true ∧ ¬ otruthy r.ip = true then some bv.ip else r.ip := rfl

theorem mergeRec_fqdn (r : BmcRec) (bx : JVal) (bv : BmcVals) :
    (mergeRec r bx bv).fqdn
      = if truthy bv.fqdn = true ∧ ¬ otruthy r.fqdn = true then some bv.fqdn else r.fqdn := rfl

theorem merge_field_first (old : Option JVal) (relOld : List Obj) (raw : Obj) (fld : String)
    (hold : old = firstT relOld fld) :
    (if truthy (Obj.dgetD raw fld) = true ∧ ¬ otruthy old = true
        then some (Obj.dgetD raw fld) else old)
      = firstT (relOld ++ [raw]) fld := by
  rw [firstT_append_single]
  cases hf : firstT relOld fld with
  | some v =>
      have hv := firstT_some_truthy _ _ _ hf
      have hot : otruthy old = true := by
        rw [hold, hf]
        simpa [otruthy] using hv
      rw [if_neg (by simp [hot]), hold, hf]
  | none =>
      rw [hold, hf]
      dsimp only
      by_cases ht : truthy (Obj.dgetD raw fld) = true
      · rw [if_pos ⟨ht, by simp [otruthy]⟩, if_pos ht]
      · rw [if_neg (fun hc => ht hc.1), if_neg ht]

theorem merge_field_triplet (old : Option JVal) (m : JVal)
    (hold : old = if truthy m = true then some m else none) :
    (if truthy m = true ∧ ¬ otruthy old = true then some m else old)
      = (if truthy m = true then some m else none) := by
  by_cases ht : truthy m = true
  · have hold2 : old = some m := by rw [hold, if_pos ht]
    have hot : otruthy old = true := by
      rw [hold2]
      simpa [otruthy] using ht
    rw [if_neg (by simp [hot]), hold2, if_pos ht]
  · rw [if_neg (fun hc => ht hc.1), hold, if_neg ht]

end InvariantHelpers

section Invariant

theorem bmcValsOf_mac (raw : Obj) : (bmcValsOf raw).mac = Obj.dgetD raw "bmc_mac" := rfl

theorem bmcValsOf_ip (raw : Obj) : (bmcValsOf raw).ip = Obj.dgetD raw "bmc_ip" := rfl

theorem bmcValsOf_fqdn (raw : Obj) : (bmcValsOf raw).fqdn = Obj.dgetD raw "bmc_fqdn" := rfl

theorem merge_field_triplet_fresh (m : JVal) :
    (if truthy m = true ∧ ¬ otruthy (none : Option JVal) = true then some m else none)
      = (if truthy m = true then some m else none) := by
  by_cases ht : truthy m = true
  · rw [if_pos ⟨ht, by simp [otruthy]⟩, if_pos ht]
  · rw [if_neg (fun hc => ht hc.1), if_neg ht]

theorem bmcsInv_nil : BmcsInv [] [] := by
  refine ⟨List.nodup_nil, ?_, ?_, ?_, ?_⟩
  · intro x _
    simp [kfind_nil, relevant]
  · intro x r _ hf
    simp [kfind_nil] at hf
  · intro m i f r hf
    simp [kfind_nil] at hf
  · intro x _
    simp [kfind_nil]

theorem bmcsInv_step (os : List Obj) (bd : BmcDict) (raw : Obj)
    (h : BmcsInv os bd) : BmcsInv (os ++ [raw]) (stepBmcs bd raw) := by
  obtain ⟨hnd, h2, h3, h4, h5⟩ := h
  simp only [stepBmcs]
  by_cases hc : (truthy (bmcValsOf raw).mac || truthy (bmcValsOf raw).ip
      || truthy (bmcValsOf raw).fqdn || truthy (bmcValsOf raw).xn
      || truthy (nodeDerived raw)) = true
  case neg =>
    rw [if_neg hc]
    have hbx : truthy (nodeDerived raw) = false := by
      cases hnb : truthy (nodeDerived raw) with
      | false => rfl
      | true => exact absurd (by rw [hnb]; simp) hc
    have hne : ∀ x : JVal, truthy x = true → nodeDerived raw ≠ x := by
      intro x hx he
      rw [he, hx] at hbx
      exact Bool.noConfusion hbx
    refine ⟨hnd, ?_, ?_, h4, h5⟩
    · intro x hx
      rw [relevant_append_single_ne os raw x (hne x hx)]
      exact h2 x hx
    · intro x r hx hf
      rw [relevant_append_single_ne os raw x (hne x hx)]
      exact h3 x r hx hf
  case pos =>
    rw [if_pos hc]
    by_cases hbx : truthy (nodeDerived raw) = true
    case pos =>
      rw [if_pos hbx]
      refine ⟨nodup_keys_kset _ _ _ hnd, ?_, ?_, ?_, ?_⟩
      · -- existence of identifier records
        intro x hx
        by_cases hxe : x = nodeDerived raw
        · subst hxe
          rw [kfind_kset_self]
          rw [relevant_append_single, if_pos (by simp)]
          simp
        · rw [kfind_kset_ne _ _ _ _ (by intro he; exact hxe (by injection he))]
          rw [relevant_append_single_ne os raw x (fun he => hxe he.symm)]
          exact h2 x hx
      · -- field contents of identifier records
        intro x r hx hf
        by_cases hxe : x = nodeDerived raw
        · subst hxe
          rw [kfind_kset_self] at hf
          injection hf with hf
          subst hf
          rw [relevant_append_single, if_pos (by simp)]
          cases h0 : kfind bd (BmcKey.xn (nodeDerived raw)) with
          | none =>
              have hrel : relevant os (nodeDerived raw) = [] := by
                by_contra hne
                have := (h2 _ hbx).2 hne
                rw [h0] at this
                exact Bool.noConfusion this
              simp only [Option.getD_none]
              refine ⟨?_, ?_, ?_, ?_⟩
              · rw [mergeRec_xname]
                rw [if_pos ⟨hbx, by simp [otruthy, BmcRec.empty]⟩]
              · rw [mergeRec_mac, bmcValsOf_mac, hrel]
                exact merge_field_first _ [] raw "bmc_mac" rfl
              · rw [mergeRec_ip, bmcValsOf_ip, hrel]
                exact merge_field_first _ [] raw "bmc_ip" rfl
              · rw [mergeRec_fqdn, bmcValsOf_fqdn, hrel]
                exact merge_field_first _ [] raw "bmc_fqdn" rfl
          | some r0 =>
              obtain ⟨hx0, hm0, hi0, hf0⟩ := h3 _ r0 hbx h0
              simp only [Option.getD_some]
              refine ⟨?_, ?_, ?_, ?_⟩
              · rw [mergeRec_xname]
                have hot : otruthy r0.xname = true := by
                  rw [hx0]
                  simpa [otruthy] using hbx
                rw [if_neg (by simp [hot]), hx0]
              · rw [mergeRec_mac, bmcValsOf_mac]
                exact merge_field_first _ _ raw "bmc_mac" hm0
              · rw [mergeRec_ip, bmcValsOf_ip]
                exact merge_field_first _ _ raw "bmc_ip" hi0
              · rw [mergeRec_fqdn, bmcValsOf_fqdn]
                exact merge_field_first _ _ raw "bmc_fqdn" hf0
        · rw [kfind_kset_ne _ _ _ _ (by intro he; exact hxe (by injection he))] at hf
          rw [relevant_append_single_ne os raw x (fun he => hxe he.symm)]
          exact h3 x r hx hf
      · -- triplet records untouched
        intro m i f r hf
        rw [kfind_kset_ne _ _ _ _ (by intro he; exact BmcKey.noConfusion he)] at hf
        exact h4 m i f r hf
      · -- no record under a falsy identifier
        intro x hx
        have hne2 : BmcKey.xn x ≠ BmcKey.xn (nodeDerived raw) := by
          intro he
          injection he with he
          rw [he, hbx] at hx
          exact Bool.noConfusion hx
        rw [kfind_kset_ne _ _ _ _ hne2]
        exact h5 x hx
    case neg =>
      rw [if_neg hbx]
      have hbxf : truthy (nodeDerived raw) = false := by
        cases hnb : truthy (nodeDerived raw) with
        | false => rfl
        | true => exact absurd hnb hbx
      have hne : ∀ x : JVal, truthy x = true → nodeDerived raw ≠ x := by
        intro x hx he
        rw [he, hx] at hbxf
        exact Bool.noConfusion hbxf
      refine ⟨nodup_keys_kset _ _ _ hnd, ?_, ?_, ?_, ?_⟩
      · intro x hx
        rw [kfind_kset_ne _ _ _ _ (by intro he; exact BmcKey.noConfusion he)]
        rw [relevant_append_single_ne os raw x (hne x hx)]
        exact h2 x hx
      · intro x r hx hf
        rw [kfind_kset_ne _ _ _ _ (by intro he; exact BmcKey.noConfusion he)] at hf
        rw [relevant_append_single_ne os raw x (hne x hx)]
        exact h3 x r hx hf
      · intro m i f r hf
        by_cases hke : BmcKey.triplet m i f
            = BmcKey.triplet (bmcValsOf raw).mac (bmcValsOf raw).ip (bmcValsOf raw).fqdn
        · rw [hke, kfind_kset_self] at hf
          injection hf with hf
          subst hf
          injection hke with hm hi hfq
          subst hm
          subst hi
          subst hfq
          cases h0 : kfind bd (BmcKey.triplet (bmcValsOf raw).mac (bmcValsOf raw).ip
              (bmcValsOf raw).fqdn) with
          | none =>
              simp only [Option.getD_none]
              refine ⟨?_, ?_, ?_, ?_⟩
              · rw [mergeRec_xname, if_neg (fun hcc => Bool.noConfusion (hbxf ▸ hcc.1))]
                rfl
              · rw [mergeRec_mac]
                exact merge_field_triplet_fresh _
              · rw [mergeRec_ip]
                exact merge_field_triplet_fresh _
              · rw [mergeRec_fqdn]
                exact merge_field_triplet_fresh _
          | some r0 =>
              obtain ⟨hx0, hm0, hi0, hf0⟩ := h4 _ _ _ r0 h0
              simp only [Option.getD_some]
              refine ⟨?_, ?_, ?_, ?_⟩
              · rw [mergeRec_xname, if_neg (fun hcc => Bool.noConfusion (hbxf ▸ hcc.1))]
                exact hx0
              · rw [mergeRec_mac]
                exact merge_field_triplet r0.mac _ hm0
              · rw [mergeRec_ip]
                exact merge_field_triplet r0.ip _ hi0
              · rw [mergeRec_fqdn]
                exact merge_field_triplet r0.fqdn _ hf0
        · rw [kfind_kset_ne _ _ _ _ hke] at hf
          exact h4 m i f r hf
      · intro x hx
        rw [kfind_kset_ne _ _ _ _ (by intro he; exact BmcKey.noConfusion he)]
        exact h5 x hx

theorem bmcsInv_fold (os : List Obj) :
    BmcsInv os (List.foldl stepBmcs [] os) := by
  suffices h : ∀ (os2 os1 : List Obj) (bd : BmcDict), BmcsInv os1 bd →
      BmcsInv (os1 ++ os2) (List.foldl stepBmcs bd os2) by
    have := h os [] [] bmcsInv_nil
    simpa using this
  intro os2
  induction os2 with
  | nil =>
      intro os1 bd h
      simpa using h
  | cons raw os2 ih =>
      intro os1 bd h
      rw [List.foldl_cons]
      have := ih (os1 ++ [raw]) (stepBmcs bd raw) (bmcsInv_step os1 bd raw h)
      simpa [List.append_assoc] using this

end Invariant

section EmitLemmas

theorem dget_cons_ne (k k' : String) (v : JVal) (d : Obj) (h : (k == k') = false) :
    Obj.dget ((k, v) :: d) k' = Obj.dget d k' := by
  rw [Obj.dget_cons]
  simp only [h]
  simp

theorem dget_emitRec_xname (r : BmcRec) : Obj.dget (emitRec r) "xname" = r.xname := by
  rw [emitRec]
  cases hx : r.xname <;> cases hm : r.mac <;> cases hi : r.ip <;> cases hf : r.fqdn <;> rfl

theorem dget_emitRec_mac (r : BmcRec) : Obj.dget (emitRec r) "mac" = r.mac := by
  rw [emitRec]
  cases hx : r.xname <;> cases hm : r.mac <;> cases hi : r.ip <;> cases hf : r.fqdn <;> rfl

theorem dget_emitRec_ip (r : BmcRec) : Obj.dget (emitRec r) "ip" = r.ip := by
  rw [emitRec]
  cases hx : r.xname <;> cases hm : r.mac <;> cases hi : r.ip <;> cases hf : r.fqdn <;> rfl

theorem dget_emitRec_fqdn (r : BmcRec) : Obj.dget (emitRec r) "fqdn" = r.fqdn := by
  rw [emitRec]
  cases hx : r.xname <;> cases hm : r.mac <;> cases hi : r.ip <;> cases hf : r.fqdn <;> rfl

theorem keysOf_emitRec_sublist (r : BmcRec) :
    (Obj.keysOf (emitRec r)).Sublist ["xname", "mac", "ip", "fqdn"] := by
  rw [emitRec]
  cases hx : r.xname <;> cases hm : r.mac <;> cases hi : r.ip <;> cases hf : r.fqdn <;>
    (simp only [optEntry, Obj.keysOf, List.map_append, List.map_cons, List.map_nil,
        List.nil_append, List.append_nil]
     decide)

end EmitLemmas

section ConvertShape

theorem convert_ok_eq (kvs : Obj) (ns : List JVal)
    (hn : Obj.dget kvs "nodes" = some (.arr ns)) :
    convert (.obj kvs) = .ok (.obj
      [("bmcs", .arr ((List.insertionSort pairProp
            (List.foldl stepBmcs [] (objsOf ns))).map
          (fun pr => JVal.obj (emitRec pr.2)))),
       ("nodes", .arr (((objsOf ns).map procNode).map JVal.obj))]) := by
  simp only [convert, hn, foldNodes_eq]

/-- C8: the output of a successful conversion is a mapping with exactly
the two keys `bmcs` and `nodes`, in that order; nothing else from the
input survives at top level. -/
theorem claim_C8 (d out : JVal) (h : convert d = .ok out) :
    ∃ bl nl, out = .obj [("bmcs", .arr bl), ("nodes", .arr nl)] := by
  cases d with
  | obj kvs =>
      cases hn : Obj.dget kvs "nodes" with
      | none =>
          rw [convert, hn] at h
          exact Except.noConfusion h
      | some v =>
          cases v with
          | arr ns =>
              rw [convert_ok_eq kvs ns hn] at h
              injection h with h
              exact ⟨_, _, h.symm⟩
          | null => rw [convert, hn] at h; exact Except.noConfusion h
          | bool b => rw [convert, hn] at h; exact Except.noConfusion h
          | num n => rw [convert, hn] at h; exact Except.noConfusion h
          | str t => rw [convert, hn] at h; exact Except.noConfusion h
          | obj o => rw [convert, hn] at h; exact Except.noConfusion h
  | null =>
      rw [convert] at h
      · exact Except.noConfusion h
      · intro raw hcon
        exact JVal.noConfusion hcon
  | bool b =>
      rw [convert] at h
      · exact Except.noConfusion h
      · intro raw hcon
        exact JVal.noConfusion hcon
  | num n =>
      rw [convert] at h
      · exact Except.noConfusion h
      · intro raw hcon
        exact JVal.noConfusion hcon
  | str t =>
      rw [convert] at h
      · exact Except.noConfusion h
      · intro raw hcon
        exact JVal.noConfusion hcon
  | arr xs =>
      rw [convert] at h
      · exact Except.noConfusion h
      · intro raw hcon
        exact JVal.noConfusion hcon

/-- C8 witness: the two-key shape at a concrete input. -/
theorem claim_C8_witness :
    ∃ bl nl, (JVal.obj [("bmcs", .arr []), ("nodes", .arr [])])
      = JVal.obj [("bmcs", .arr bl), ("nodes", .arr nl)] :=
  claim_C8 (.obj [("extra", .str "kept?"), ("nodes", .arr [])]) _ (by decide)

end ConvertShape

section ClaimC5

theorem bmcXnameOf_obj (o : Obj) : bmcXnameOf (.obj o) = Obj.dget o "xname" := rfl

theorem BmcRec.ext4 (a b : BmcRec) (h1 : a.xname = b.xname) (h2 : a.mac = b.mac)
    (h3 : a.ip = b.ip) (h4 : a.fqdn = b.fqdn) : a = b := by
  cases a
  cases b
  simp_all

/-- Every entry of the aggregation dict is either an identifier record
(carrying its identifier and the first-written field values of the
sharing nodes) or a triplet record with no `xname`. -/
theorem bd_entry_cases (os : List Obj) (pr : BmcKey × BmcRec)
    (hpr : pr ∈ List.foldl stepBmcs [] os) :
    (∃ y, pr.1 = BmcKey.xn y ∧ truthy y = true ∧ pr.2.xname = some y
        ∧ pr.2.mac = firstT (relevant os y) "bmc_mac"
        ∧ pr.2.ip = firstT (relevant os y) "bmc_ip"
        ∧ pr.2.fqdn = firstT (relevant os y) "bmc_fqdn")
    ∨ (∃ m i f, pr.1 = BmcKey.triplet m i f ∧ pr.2.xname = none) := by
  obtain ⟨hnd, h2, h3, h4, h5⟩ := bmcsInv_fold os
  have hk := kfind_of_mem _ pr hnd hpr
  cases hpr1 : pr.1 with
  | xn y =>
      rw [hpr1] at hk
      cases hty : truthy y with
      | true =>
          obtain ⟨ha, hb, hc, hd⟩ := h3 y pr.2 hty hk
          exact Or.inl ⟨y, rfl, hty, ha, hb, hc, hd⟩
      | false =>
          rw [h5 y hty] at hk
          exact Option.noConfusion hk
  | triplet m i f =>
      rw [hpr1] at hk
      obtain ⟨ha, -⟩ := h4 m i f pr.2 hk
      exact Or.inr ⟨m, i, f, rfl, ha⟩

/-- C5: all nodes sharing a (non-empty) derived identifier produce
exactly one `bmcs` entry carrying that identifier, and that entry's
fields are the first-written (first-writer-wins) values over those
nodes in input order. -/
theorem claim_C5 (kvs : Obj) (ns : List JVal) (x : JVal) (out : JVal)
    (hn : Obj.dget kvs "nodes" = some (.arr ns))
    (hconv : convert (.obj kvs) = .ok out)
    (hx : truthy x = true)
    (hrel : relevant (objsOf ns) x ≠ []) :
    ∃ bl nl, out = .obj [("bmcs", .arr bl), ("nodes", .arr nl)]
      ∧ bl.countP (fun b => bmcXnameOf b == some x) = 1
      ∧ (∀ b, b ∈ bl → bmcXnameOf b = some x →
          b = .obj (emitRec (BmcRec.mk (some x)
            (firstT (relevant (objsOf ns) x) "bmc_mac")
            (firstT (relevant (objsOf ns) x) "bmc_ip")
            (firstT (relevant (objsOf ns) x) "bmc_fqdn")))) := by
  have hout := convert_ok_eq kvs ns hn
  rw [hconv] at hout
  injection hout with hout
  obtain ⟨hnd, h2, h3, h4, h5⟩ := bmcsInv_fold (objsOf ns)
  refine ⟨_, _, hout, ?_, ?_⟩
  · -- the count is one
    rw [List.countP_map]
    rw [List.Perm.countP_eq _ (List.perm_insertionSort pairProp _)]
    rw [List.countP_congr (q := fun pr => pr.1 == BmcKey.xn x) ?hpt]
    case hpt =>
      intro pr hpr
      rcases bd_entry_cases (objsOf ns) pr hpr with
        ⟨y, hk, hty, hxname, -, -, -⟩ | ⟨m, i, f, hk, hnone⟩
      · simp only [Function.comp, bmcXnameOf_obj, dget_emitRec_xname, hxname, hk]
        simp [beq_iff_eq]
      · simp only [Function.comp, bmcXnameOf_obj, dget_emitRec_xname, hnone, hk]
        simp
    rw [countP_key_eq _ _ hnd]
    rw [if_pos ((h2 x hx).2 hrel)]
  · -- the unique record's contents
    intro b hb hbx
    obtain ⟨pr, hpr, hfb⟩ := List.mem_map.1 hb
    have hprbd : pr ∈ List.foldl stepBmcs [] (objsOf ns) :=
      ((List.perm_insertionSort pairProp _).mem_iff).1 hpr
    have hxn : pr.2.xname = some x := by
      rw [← hfb, bmcXnameOf_obj, dget_emitRec_xname] at hbx
      exact hbx
    rcases bd_entry_cases (objsOf ns) pr hprbd with
      ⟨y, hk, hty, hxname, hm, hi, hf2⟩ | ⟨m, i, f, hk, hnone⟩
    · have hyx : y = x := by
        rw [hxname] at hxn
        injection hxn
      subst hyx
      have hrec : pr.2 = BmcRec.mk (some y)
          (firstT (relevant (objsOf ns) y) "bmc_mac")
          (firstT (relevant (objsOf ns) y) "bmc_ip")
          (firstT (relevant (objsOf ns) y) "bmc_fqdn") :=
        BmcRec.ext4 _ _ (by rw [hxname]) (by rw [hm]) (by rw [hi]) (by rw [hf2])
      rw [← hfb, hrec]
    · rw [hnone] at hxn
      exact Option.noConfusion hxn

/-- C5 witness: two nodes sharing derived identifier `"x1c0s0b0"`
merge into a single record with first-written `mac` and `ip`. -/
theorem claim_C5_witness :
    ∃ bl nl, JVal.obj
        [("bmcs", .arr [.obj [("xname", .str "x1c0s0b0"), ("mac", .str "aa"),
            ("ip", .str "1.2")]]),
         ("nodes", .arr
           [.obj [("xname", .str "x1c0s0b0n0"), ("groups", .null), ("bmc", .str "x1c0s0b0")],
            .obj [("xname", .str "x1c0s0b0n1"), ("groups", .null), ("bmc", .str "x1c0s0b0")]])]
      = .obj [("bmcs", .arr bl), ("nodes", .arr nl)]
      ∧ bl.countP (fun b => bmcXnameOf b == some (.str "x1c0s0b0")) = 1
      ∧ (∀ b, b ∈ bl → bmcXnameOf b = some (.str "x1c0s0b0") →
          b = .obj (emitRec (BmcRec.mk (some (.str "x1c0s0b0"))
            (firstT (relevant (objsOf
              [.obj [("xname", .str "x1c0s0b0n0"), ("bmc_mac", .str "aa")],
               .obj [("xname", .str "x1c0s0b0n1"), ("bmc_ip", .str "1.2")]])
              (.str "x1c0s0b0")) "bmc_mac")
            (firstT (relevant (objsOf
              [.obj [("xname", .str "x1c0s0b0n0"), ("bmc_mac", .str "aa")],
               .obj [("xname", .str "x1c0s0b0n1"), ("bmc_ip", .str "1.2")]])
              (.str "x1c0s0b0")) "bmc_ip")
            (firstT (relevant (objsOf
              [.obj [("xname", .str "x1c0s0b0n0"), ("bmc_mac", .str "aa")],
               .obj [("xname", .str "x1c0s0b0n1"), ("bmc_ip", .str "1.2")]])
              (.str "x1c0s0b0")) "bmc_fqdn")))) :=
  claim_C5
    [("nodes", .arr
      [.obj [("xname", .str "x1c0s0b0n0"), ("bmc_mac", .str "aa")],
       .obj [("xname", .str "x1c0s0b0n1"), ("bmc_ip", .str "1.2")]])]
    [.obj [("xname", .str "x1c0s0b0n0"), ("bmc_mac", .str "aa")],
     .obj [("xname", .str "x1c0s0b0n1"), ("bmc_ip", .str "1.2")]]
    (.str "x1c0s0b0") _ (by decide) (by decide) (by decide) (by decide)

end ClaimC5

section ClaimC7C10

theorem dget_stripBmc_ne (raw : Obj) (k : String) (h1 : k ≠ "bmc_mac")
    (h2 : k ≠ "bmc_ip") (h3 : k ≠ "bmc_fqdn") (h4 : k ≠ "bmc_xname") :
    (stripBmc raw).dget k = raw.dget k := by
  rw [stripBmc, Obj.dget_dpop_ne _ _ _ h4, Obj.dget_dpop_ne _ _ _ h3,
      Obj.dget_dpop_ne _ _ _ h2, Obj.dget_dpop_ne _ _ _ h1]

/-- A node without a pre-existing `bmc` key carries `bmc` in the output
exactly when an identifier was derived, and then with that identifier. -/
theorem dget_procNode_bmc (o : Obj) (hb : Obj.hasKey o "bmc" = false) :
    Obj.dget (procNode o) "bmc"
      = if truthy (nodeDerived o) = true then some (nodeDerived o) else none := by
  have hbase : (normalize_groups (stripBmc o)).dget "bmc" = none := by
    rw [dget_normalize_ne _ _ (by decide) (by decide),
        dget_stripBmc_ne _ _ (by decide) (by decide) (by decide) (by decide)]
    rw [Obj.hasKey_iff_dget] at hb
    cases hdg : Obj.dget o "bmc" with
    | none => rfl
    | some w => rw [hdg] at hb; simp at hb
  rw [procNode]
  by_cases ht : truthy (nodeDerived o) = true
  · rw [if_pos ht, if_pos ht, Obj.dget_dset_self]
  · rw [if_neg ht, if_neg ht, hbase]

/-- C7, counterexample.  An input node carrying a stray `bmc` field and
no BMC information passes the field through verbatim while `bmcs` stays
empty, so the output node's `bmc` matches no record's `xname`. -/
theorem claim_C7_counterexample :
    convert (.obj [("nodes", .arr [.obj [("bmc", .str "zzz")]])])
      = .ok (.obj [("bmcs", .arr []),
          ("nodes", .arr [.obj [("bmc", .str "zzz"), ("groups", .null)]])])
    ∧ getF (.obj [("bmc", .str "zzz"), ("groups", .null)]) "bmc" = some (.str "zzz")
    ∧ ¬ ∃ b, b ∈ ([] : List JVal) ∧ bmcXnameOf b = some (.str "zzz") := by
  refine ⟨by decide, by decide, ?_⟩
  rintro ⟨b, hb, -⟩
  exact absurd hb (by simp)

/-- C7, amended: provided no input node carries a pre-existing `bmc`
key, every output node's `bmc` field equals the `xname` of some record
in the output `bmcs` list. -/
theorem claim_C7_amended (kvs : Obj) (ns : List JVal) (out : JVal)
    (hn : Obj.dget kvs "nodes" = some (.arr ns))
    (hconv : convert (.obj kvs) = .ok out)
    (hnb : ∀ o, o ∈ objsOf ns → Obj.hasKey o "bmc" = false) :
    ∃ bl nl, out = .obj [("bmcs", .arr bl), ("nodes", .arr nl)]
      ∧ ∀ nd, nd ∈ nl → ∀ v, getF nd "bmc" = some v →
          ∃ b, b ∈ bl ∧ bmcXnameOf b = some v := by
  have hout := convert_ok_eq kvs ns hn
  rw [hconv] at hout
  injection hout with hout
  obtain ⟨hnd, h2, h3, h4, h5⟩ := bmcsInv_fold (objsOf ns)
  refine ⟨_, _, hout, ?_⟩
  intro nd hnd2 v hv
  obtain ⟨o2, ho2, rfl⟩ := List.mem_map.1 hnd2
  obtain ⟨o, ho, rfl⟩ := List.mem_map.1 ho2
  have hv2 : Obj.dget (procNode o) "bmc" = some v := hv
  rw [dget_procNode_bmc o (hnb o ho)] at hv2
  by_cases ht : truthy (nodeDerived o) = true
  · rw [if_pos ht] at hv2
    injection hv2 with hv2
    subst hv2
    have hrelne : relevant (objsOf ns) (nodeDerived o) ≠ [] := by
      apply List.ne_nil_of_mem (a := o)
      exact List.mem_filter.2 ⟨ho, by simp⟩
    have hsome := (h2 _ ht).2 hrelne
    cases hf : kfind (List.foldl stepBmcs [] (objsOf ns)) (BmcKey.xn (nodeDerived o)) with
    | none => rw [hf] at hsome; exact Bool.noConfusion hsome
    | some r =>
        obtain ⟨hx0, -, -, -⟩ := h3 _ r ht hf
        refine ⟨.obj (emitRec r), ?_, ?_⟩
        · exact List.mem_map.2 ⟨(BmcKey.xn (nodeDerived o), r),
            ((List.perm_insertionSort pairProp _).mem_iff).2 (mem_of_kfind_some _ _ _ hf), rfl⟩
        · rw [bmcXnameOf_obj, dget_emitRec_xname, hx0]
  · rw [if_neg ht] at hv2
    exact Option.noConfusion hv2

/-- C7 witness: a node deriving identifier `"x1b0"` gets
`bmc = "x1b0"`, which appears as an `xname` in `bmcs`. -/
theorem claim_C7_amended_witness :
    ∃ bl nl, JVal.obj [("bmcs", .arr [.obj [("xname", .str "x1b0")]]),
        ("nodes", .arr [.obj [("xname", .str "x1b0n0"), ("groups", .null),
          ("bmc", .str "x1b0")]])]
      = .obj [("bmcs", .arr bl), ("nodes", .arr nl)]
      ∧ ∀ nd, nd ∈ nl → ∀ v, getF nd "bmc" = some v →
          ∃ b, b ∈ bl ∧ bmcXnameOf b = some v :=
  claim_C7_amended [("nodes", .arr [.obj [("xname", .str "x1b0n0")]])]
    [.obj [("xname", .str "x1b0n0")]] _
    (by decide) (by decide) (by decide)

/-- C10: an aggregated record carries an `xname` field iff its
aggregation key is identifier-based, both in the internal dict and on
the emitted mappings (so triplet-keyed records are emitted without
`xname` and can never be referenced by a node's `bmc`). -/
theorem claim_C10 (kvs : Obj) (ns : List JVal) (out : JVal)
    (hn : Obj.dget kvs "nodes" = some (.arr ns))
    (hconv : convert (.obj kvs) = .ok out) :
    ∃ bl nl, out = .obj [("bmcs", .arr bl), ("nodes", .arr nl)]
      ∧ bl = (List.insertionSort pairProp (List.foldl stepBmcs [] (objsOf ns))).map
          (fun pr => JVal.obj (emitRec pr.2))
      ∧ (∀ pr, pr ∈ List.foldl stepBmcs [] (objsOf ns) →
          ((∃ y, pr.1 = BmcKey.xn y) ↔ pr.2.xname.isSome = true))
      ∧ (∀ pr, pr ∈ List.insertionSort pairProp (List.foldl stepBmcs [] (objsOf ns)) →
          ((∃ y, pr.1 = BmcKey.xn y) ↔ Obj.hasKey (emitRec pr.2) "xname" = true)) := by
  have hout := convert_ok_eq kvs ns hn
  rw [hconv] at hout
  injection hout with hout
  have hentry : ∀ pr, pr ∈ List.foldl stepBmcs [] (objsOf ns) →
      ((∃ y, pr.1 = BmcKey.xn y) ↔ pr.2.xname.isSome = true) := by
    intro pr hpr
    rcases bd_entry_cases (objsOf ns) pr hpr with
      ⟨y, hk, -, hxname, -, -, -⟩ | ⟨m, i, f, hk, hnone⟩
    · constructor
      · intro _
        rw [hxname]
        rfl
      · intro _
        exact ⟨y, hk⟩
    · constructor
      · rintro ⟨y, hy⟩
        rw [hk] at hy
        exact BmcKey.noConfusion hy
      · intro hc
        rw [hnone] at hc
        exact Bool.noConfusion hc
  refine ⟨_, _, hout, rfl, hentry, ?_⟩
  intro pr hpr
  have hprbd : pr ∈ List.foldl stepBmcs [] (objsOf ns) :=
    ((List.perm_insertionSort pairProp _).mem_iff).1 hpr
  rw [Obj.hasKey_iff_dget, dget_emitRec_xname]
  exact hentry pr hprbd

/-- C10 witness: one identifier record (with `xname`) and one
triplet record (without) at a concrete input. -/
theorem claim_C10_witness :
    ∃ bl nl, JVal.obj [("bmcs", .arr [.obj [("xname", .str "x1b0")],
          .obj [("mac", .str "mm")]]),
        ("nodes", .arr [.obj [("groups", .null)],
          .obj [("xname", .str "x1b0n0"), ("groups", .null), ("bmc", .str "x1b0")]])]
      = .obj [("bmcs", .arr bl), ("nodes", .arr nl)]
      ∧ bl = (List.insertionSort pairProp (List.foldl stepBmcs []
          (objsOf [.obj [("bmc_mac", .str "mm")], .obj [("xname", .str "x1b0n0")]]))).map
          (fun pr => JVal.obj (emitRec pr.2))
      ∧ (∀ pr, pr ∈ List.foldl stepBmcs []
            (objsOf [.obj [("bmc_mac", .str "mm")], .obj [("xname", .str "x1b0n0")]]) →
          ((∃ y, pr.1 = BmcKey.xn y) ↔ pr.2.xname.isSome = true))
      ∧ (∀ pr, pr ∈ List.insertionSort pairProp (List.foldl stepBmcs []
            (objsOf [.obj [("bmc_mac", .str "mm")], .obj [("xname", .str "x1b0n0")]])) →
          ((∃ y, pr.1 = BmcKey.xn y) ↔ Obj.hasKey (emitRec pr.2) "xname" = true)) :=
  claim_C10 [("nodes", .arr [.obj [("bmc_mac", .str "mm")], .obj [("xname", .str "x1b0n0")]])]
    [.obj [("bmc_mac", .str "mm")], .obj [("xname", .str "x1b0n0")]] _
    (by decide) (by decide)

end ClaimC7C10

section OrderLemmas

theorem jvalLe_iff (a b : JVal) :
    jvalLe a b = true
      ↔ (jvalRank a < jvalRank b
          ∨ (jvalRank a = jvalRank b ∧ jvalLeSame a b = true)) := by
  simp [jvalLe]

theorem jvalLeSame_refl (a : JVal) : jvalLeSame a a = true := by
  cases a <;> simp [jvalLeSame]

theorem jvalLe_refl (a : JVal) : jvalLe a a = true := by
  rw [jvalLe_iff]
  exact Or.inr ⟨rfl, jvalLeSame_refl a⟩

theorem jvalLeSame_total (a b : JVal) (h : jvalRank a = jvalRank b) :
    jvalLeSame a b = true ∨ jvalLeSame b a = true := by
  cases a <;> cases b <;> simp [jvalRank] at h <;> simp [jvalLeSame] <;>
    first
      | exact le_total _ _
      | exact Int.le_total _ _
      | exact Bool.le_total _ _

theorem jvalLe_total (a b : JVal) : jvalLe a b = true ∨ jvalLe b a = true := by
  rcases Nat.lt_trichotomy (jvalRank a) (jvalRank b) with h | h | h
  · exact Or.inl ((jvalLe_iff a b).2 (Or.inl h))
  · rcases jvalLeSame_total a b h with hs | hs
    · exact Or.inl ((jvalLe_iff a b).2 (Or.inr ⟨h, hs⟩))
    · exact Or.inr ((jvalLe_iff b a).2 (Or.inr ⟨h.symm, hs⟩))
  · exact Or.inr ((jvalLe_iff b a).2 (Or.inl h))

theorem jvalLeSame_trans (a b c : JVal) (hab : jvalRank a = jvalRank b)
    (hbc : jvalRank b = jvalRank c)
    (h1 : jvalLeSame a b = true) (h2 : jvalLeSame b c = true) :
    jvalLeSame a c = true := by
  cases a <;> cases b <;> cases c <;>
    simp_all [jvalRank, jvalLeSame] <;>
      first
        | exact le_trans (by assumption) (by assumption)
        | exact Int.le_trans (by assumption) (by assumption)
        | exact Bool.le_trans (by assumption) (by assumption)

theorem jvalLe_trans (a b c : JVal) (h1 : jvalLe a b = true) (h2 : jvalLe b c = true) :
    jvalLe a c = true := by
  rw [jvalLe_iff] at h1 h2 ⊢
  rcases h1 with h1 | ⟨h1e, h1s⟩
  · rcases h2 with h2 | ⟨h2e, h2s⟩
    · exact Or.inl (Nat.lt_trans h1 h2)
    · exact Or.inl (h2e ▸ h1)
  · rcases h2 with h2 | ⟨h2e, h2s⟩
    · exact Or.inl (h1e ▸ h2)
    · exact Or.inr ⟨h1e.trans h2e, jvalLeSame_trans a b c h1e h2e h1s h2s⟩

theorem jvalLt_of_Lt_of_Le (a b c : JVal) (h1 : jvalLt a b = true) (h2 : jvalLe b c = true) :
    jvalLt a c = true := by
  rw [jvalLt, Bool.and_eq_true] at h1 ⊢
  obtain ⟨h1l, h1n⟩ := h1
  refine ⟨jvalLe_trans a b c h1l h2, ?_⟩
  simp only [Bool.not_eq_true'] at h1n ⊢
  by_contra hc
  simp only [Bool.not_eq_false] at hc
  have := jvalLe_trans c a b hc h1l
  have h2' := jvalLe_trans b c a h2 hc
  rw [h2'] at h1n
  exact Bool.noConfusion h1n

theorem jvalLt_of_Le_of_Lt (a b c : JVal) (h1 : jvalLe a b = true) (h2 : jvalLt b c = true) :
    jvalLt a c = true := by
  rw [jvalLt, Bool.and_eq_true] at h2 ⊢
  obtain ⟨h2l, h2n⟩ := h2
  refine ⟨jvalLe_trans a b c h1 h2l, ?_⟩
  simp only [Bool.not_eq_true'] at h2n ⊢
  by_contra hc
  simp only [Bool.not_eq_false] at hc
  have := jvalLe_trans c a b hc h1
  rw [this] at h2n
  exact Bool.noConfusion h2n

theorem jvalLt_le (a b : JVal) (h : jvalLt a b = true) : jvalLe a b = true := by
  rw [jvalLt, Bool.and_eq_true] at h
  exact h.1

theorem jvalEqv_le_left (a b : JVal) (h : jvalEqv a b = true) : jvalLe a b = true := by
  rw [jvalEqv, Bool.and_eq_true] at h
  exact h.1

theorem jvalEqv_le_right (a b : JVal) (h : jvalEqv a b = true) : jvalLe b a = true := by
  rw [jvalEqv, Bool.and_eq_true] at h
  exact h.2

theorem jvalEqv_trans (a b c : JVal) (h1 : jvalEqv a b = true) (h2 : jvalEqv b c = true) :
    jvalEqv a c = true := by
  rw [jvalEqv, Bool.and_eq_true] at h1 h2 ⊢
  exact ⟨jvalLe_trans a b c h1.1 h2.1, jvalLe_trans c b a h2.2 h1.2⟩

theorem jval_trichotomy (a b : JVal) :
    jvalLt a b = true ∨ jvalLt b a = true ∨ jvalEqv a b = true := by
  by_cases hab : jvalLe a b = true
  · by_cases hba : jvalLe b a = true
    · exact Or.inr (Or.inr (by rw [jvalEqv, Bool.and_eq_true]; exact ⟨hab, hba⟩))
    · refine Or.inl ?_
      rw [jvalLt, Bool.and_eq_true]
      exact ⟨hab, by simp [Bool.not_eq_true] at hba ⊢; exact hba⟩
  · rcases jvalLe_total a b with h | h
    · exact absurd h hab
    · refine Or.inr (Or.inl ?_)
      rw [jvalLt, Bool.and_eq_true]
      exact ⟨h, by simp [Bool.not_eq_true] at hab ⊢; exact hab⟩

theorem skeyLe_trans (k1 k2 k3 : SKey) (h1 : skeyLe k1 k2 = true)
    (h2 : skeyLe k2 k3 = true) : skeyLe k1 k3 = true := by
  cases k1 with
  | withX a =>
      cases k3 with
      | noX c1 c2 c3 => rfl
      | withX c =>
          cases k2 with
          | withX b => exact jvalLe_trans a b c h1 h2
          | noX b1 b2 b3 => exact Bool.noConfusion h2
  | noX a1 a2 a3 =>
      cases k2 with
      | withX b => exact Bool.noConfusion h1
      | noX b1 b2 b3 =>
          cases k3 with
          | withX c => exact Bool.noConfusion h2
          | noX c1 c2 c3 =>
              rw [skeyLe] at h1 h2 ⊢
              simp only [Bool.or_eq_true, Bool.and_eq_true] at h1 h2 ⊢
              rcases h1 with h1 | ⟨h1e, h1r⟩
              · rcases h2 with h2 | ⟨h2e, h2r⟩
                · exact Or.inl (jvalLt_of_Lt_of_Le _ _ _ h1 (jvalLt_le _ _ h2))
                · exact Or.inl (jvalLt_of_Lt_of_Le _ _ _ h1 (jvalEqv_le_left _ _ h2e))
              · rcases h2 with h2 | ⟨h2e, h2r⟩
                · exact Or.inl (jvalLt_of_Le_of_Lt _ _ _ (jvalEqv_le_left _ _ h1e) h2)
                · refine Or.inr ⟨jvalEqv_trans _ _ _ h1e h2e, ?_⟩
                  rcases h1r with h1r | ⟨h1re, h1rr⟩
                  · rcases h2r with h2r | ⟨h2re, h2rr⟩
                    · exact Or.inl (jvalLt_of_Lt_of_Le _ _ _ h1r (jvalLt_le _ _ h2r))
                    · exact Or.inl (jvalLt_of_Lt_of_Le _ _ _ h1r (jvalEqv_le_left _ _ h2re))
                  · rcases h2r with h2r | ⟨h2re, h2rr⟩
                    · exact Or.inl (jvalLt_of_Le_of_Lt _ _ _ (jvalEqv_le_left _ _ h1re) h2r)
                    · exact Or.inr ⟨jvalEqv_trans _ _ _ h1re h2re,
                        jvalLe_trans _ _ _ h1rr h2rr⟩

theorem jvalEqv_symm (a b : JVal) (h : jvalEqv a b = true) : jvalEqv b a = true := by
  rw [jvalEqv, Bool.and_eq_true] at h ⊢
  exact ⟨h.2, h.1⟩

theorem skeyLe_total (k1 k2 : SKey) : skeyLe k1 k2 = true ∨ skeyLe k2 k1 = true := by
  cases k1 with
  | withX a =>
      cases k2 with
      | withX b => exact (jvalLe_total a b).imp id id
      | noX b1 b2 b3 => exact Or.inl rfl
  | noX a1 a2 a3 =>
      cases k2 with
      | withX b => exact Or.inr rfl
      | noX b1 b2 b3 =>
          rw [skeyLe, skeyLe]
          simp only [Bool.or_eq_true, Bool.and_eq_true]
          rcases jval_trichotomy a1 b1 with h | h | h
          · exact Or.inl (Or.inl h)
          · exact Or.inr (Or.inl h)
          · rcases jval_trichotomy a2 b2 with h2 | h2 | h2
            · exact Or.inl (Or.inr ⟨h, Or.inl h2⟩)
            · exact Or.inr (Or.inr ⟨jvalEqv_symm _ _ h, Or.inl h2⟩)
            · rcases jvalLe_total a3 b3 with h3 | h3
              · exact Or.inl (Or.inr ⟨h, Or.inr ⟨h2, h3⟩⟩)
              · exact Or.inr (Or.inr ⟨jvalEqv_symm _ _ h, Or.inr ⟨jvalEqv_symm _ _ h2, h3⟩⟩)

theorem emittedSortKey_emit (pr : BmcKey × BmcRec) :
    emittedSortKey (.obj (emitRec pr.2)) = sort_key pr := by
  simp only [emittedSortKey, sort_key, getF, dget_emitRec_xname, dget_emitRec_mac,
    dget_emitRec_ip, dget_emitRec_fqdn]

/-- C6: the emitted `bmcs` list is sorted — records with a known
identifier first (lexicographically by identifier), then the rest
lexicographically by `(ip, mac, fqdn)` with missing values as empty
strings (`emittedSortKey`/`skeyLe` encode exactly that comparison) —
and every emitted record is a mapping whose keys are a subsequence of
`xname`, `mac`, `ip`, `fqdn` (only known fields, in that fixed order). -/
theorem claim_C6 (kvs : Obj) (ns : List JVal) (out : JVal)
    (hn : Obj.dget kvs "nodes" = some (.arr ns))
    (hconv : convert (.obj kvs) = .ok out) :
    ∃ bl nl, out = .obj [("bmcs", .arr bl), ("nodes", .arr nl)]
      ∧ List.Pairwise (fun b1 b2 => skeyLe (emittedSortKey b1) (emittedSortKey b2) = true) bl
      ∧ (∀ b, b ∈ bl → ∃ o, b = .obj o
          ∧ (Obj.keysOf o).Sublist ["xname", "mac", "ip", "fqdn"]) := by
  have hout := convert_ok_eq kvs ns hn
  rw [hconv] at hout
  injection hout with hout
  refine ⟨_, _, hout, ?_, ?_⟩
  · haveI htot : IsTotal (BmcKey × BmcRec) pairProp := ⟨fun a b => skeyLe_total _ _⟩
    haveI htr : IsTrans (BmcKey × BmcRec) pairProp :=
      ⟨fun a b c h1 h2 => skeyLe_trans _ _ _ h1 h2⟩
    have hp : List.Pairwise pairProp
        (List.insertionSort pairProp (List.foldl stepBmcs [] (objsOf ns))) :=
      List.sorted_insertionSort pairProp (List.foldl stepBmcs [] (objsOf ns))
    refine List.Pairwise.map _ ?_ hp
    intro p1 p2 hle
    rw [emittedSortKey_emit, emittedSortKey_emit]
    exact hle
  · intro b hb
    obtain ⟨pr, hpr, rfl⟩ := List.mem_map.1 hb
    exact ⟨emitRec pr.2, rfl, keysOf_emitRec_sublist pr.2⟩

/-- C6 witness: the sorted two-record output at a concrete input (the
identifier record precedes the triplet record). -/
theorem claim_C6_witness :
    ∃ bl nl, JVal.obj [("bmcs", .arr [.obj [("xname", .str "x1b0")],
          .obj [("mac", .str "mm")]]),
        ("nodes", .arr [.obj [("groups", .null)],
          .obj [("xname", .str "x1b0n0"), ("groups", .null), ("bmc", .str "x1b0")]])]
      = .obj [("bmcs", .arr bl), ("nodes", .arr nl)]
      ∧ List.Pairwise (fun b1 b2 => skeyLe (emittedSortKey b1) (emittedSortKey b2) = true) bl
      ∧ (∀ b, b ∈ bl → ∃ o, b = .obj o
          ∧ (Obj.keysOf o).Sublist ["xname", "mac", "ip", "fqdn"]) :=
  claim_C6 [("nodes", .arr [.obj [("bmc_mac", .str "mm")], .obj [("xname", .str "x1b0n0")]])]
    [.obj [("bmc_mac", .str "mm")], .obj [("xname", .str "x1b0n0")]] _
    (by decide) (by decide)

end OrderLemmas

section ClaimC4

theorem filter_nsp_dpop (d : Obj) (k : String) (hk : SPECIAL.contains k = true) :
    (d.dpop k).filter (fun e => !(SPECIAL.contains e.1))
      = d.filter (fun e => !(SPECIAL.contains e.1)) := by
  rw [Obj.dpop, List.filter_filter]
  apply List.filter_congr
  intro e _
  cases hc : SPECIAL.contains e.1 with
  | true => simp [hc]
  | false =>
      have hne : (e.1 != k) = true := by
        refine bne_iff_ne.2 ?_
        intro he
        rw [he, hk] at hc
        exact Bool.noConfusion hc
      simp [hc, hne]

theorem filter_nsp_map_replace (d : Obj) (k : String) (v : JVal)
    (hk : SPECIAL.contains k = true) :
    (d.map (fun e => if e.1 == k then (k, v) else e)).filter
        (fun e => !(SPECIAL.contains e.1))
      = d.filter (fun e => !(SPECIAL.contains e.1)) := by
  induction d with
  | nil => rfl
  | cons e d ih =>
      rw [List.map_cons, List.filter_cons, List.filter_cons]
      by_cases he : e.1 == k
      · rw [if_pos he]
        have he2 : e.1 = k := by simpa using he
        have hce : SPECIAL.contains e.1 = true := by rw [he2]; exact hk
        have hc1 : (!(SPECIAL.contains ((k, v) : String × JVal).1)) = false := by
          simp only [hk]
          rfl
        have hc2 : (!(SPECIAL.contains e.1)) = false := by
          simp only [hce]
          rfl
        rw [hc1, hc2]
        simp only [Bool.false_eq_true, if_false]
        exact ih
      · rw [if_neg he]
        cases hc : SPECIAL.contains e.1 with
        | true =>
            simp only [hc, Bool.not_true, Bool.false_eq_true, if_false]
            exact ih
        | false =>
            simp only [hc, Bool.not_false, if_true]
            rw [ih]

theorem filter_nsp_dset (d : Obj) (k : String) (v : JVal)
    (hk : SPECIAL.contains k = true) :
    (d.dset k v).filter (fun e => !(SPECIAL.contains e.1))
      = d.filter (fun e => !(SPECIAL.contains e.1)) := by
  rw [Obj.dset]
  by_cases h : d.hasKey k = true
  · rw [if_pos h]
    exact filter_nsp_map_replace d k v hk
  · rw [if_neg h, List.filter_append]
    have hkv : (!(SPECIAL.contains ((k, v) : String × JVal).1)) = false := by
      simp only [hk]
      rfl
    rw [List.filter_cons, hkv]
    simp

theorem dget_stripBmc_group (raw : Obj) : (stripBmc raw).dget "group" = raw.dget "group" :=
  dget_stripBmc_ne raw "group" (by decide) (by decide) (by decide) (by decide)

theorem dget_stripBmc_groups (raw : Obj) : (stripBmc raw).dget "groups" = raw.dget "groups" :=
  dget_stripBmc_ne raw "groups" (by decide) (by decide) (by decide) (by decide)

theorem hasKey_stripBmc_group (raw : Obj) :
    (stripBmc raw).hasKey "group" = raw.hasKey "group" := by
  rw [Obj.hasKey_iff_dget, Obj.hasKey_iff_dget, dget_stripBmc_group]

theorem hasKey_stripBmc_groups (raw : Obj) :
    (stripBmc raw).hasKey "groups" = raw.hasKey "groups" := by
  rw [Obj.hasKey_iff_dget, Obj.hasKey_iff_dget, dget_stripBmc_groups]

theorem dgetD_stripBmc_group (raw : Obj) :
    (stripBmc raw).dgetD "group" = raw.dgetD "group" := by
  rw [Obj.dgetD, Obj.dgetD, dget_stripBmc_group]

theorem dgetD_stripBmc_groups (raw : Obj) :
    (stripBmc raw).dgetD "groups" = raw.dgetD "groups" := by
  rw [Obj.dgetD, Obj.dgetD, dget_stripBmc_groups]

theorem groupSeed_stripBmc (raw : Obj) : groupSeed (stripBmc raw) = groupSeed raw := by
  rw [groupSeed, groupSeed, hasKey_stripBmc_group, dgetD_stripBmc_group]

theorem groupsContrib_stripBmc (raw : Obj) :
    groupsContrib (stripBmc raw) = groupsContrib raw := by
  rw [groupsContrib, groupsContrib, dgetD_stripBmc_groups]

theorem dget_stripBmc_self (raw : Obj) :
    (stripBmc raw).dget "bmc_mac" = none ∧ (stripBmc raw).dget "bmc_ip" = none
    ∧ (stripBmc raw).dget "bmc_fqdn" = none ∧ (stripBmc raw).dget "bmc_xname" = none := by
  rw [stripBmc]
  refine ⟨?_, ?_, ?_, ?_⟩
  · rw [Obj.dget_dpop_ne _ _ _ (by decide), Obj.dget_dpop_ne _ _ _ (by decide),
        Obj.dget_dpop_ne _ _ _ (by decide), Obj.dget_dpop_self]
  · rw [Obj.dget_dpop_ne _ _ _ (by decide), Obj.dget_dpop_ne _ _ _ (by decide),
        Obj.dget_dpop_self]
  · rw [Obj.dget_dpop_ne _ _ _ (by decide), Obj.dget_dpop_self]
  · rw [Obj.dget_dpop_self]

/-- The per-node frame property: `procNode` only removes the `bmc_*`
keys and a non-null `group`, rewrites `groups`, possibly sets `bmc`,
and leaves every other entry verbatim in place. -/
theorem procNode_frame (raw : Obj) : procFrame raw (procNode raw) := by
  have hframe_strip := fun k hk => filter_nsp_dpop raw k hk
  have hshape := normalize_groups_shape (stripBmc raw)
  obtain ⟨w, hw⟩ := hshape
  -- the normalized node as conditional pop + set
  have hn2 : ∀ k, k ≠ "groups" → k ≠ "group" →
      (normalize_groups (stripBmc raw)).dget k = (stripBmc raw).dget k := by
    intro k h1 h2
    exact dget_normalize_ne _ k h1 h2
  have hframe : (procNode raw).filter (fun e => !(SPECIAL.contains e.1))
      = raw.filter (fun e => !(SPECIAL.contains e.1)) := by
    have hs : (stripBmc raw).filter (fun e => !(SPECIAL.contains e.1))
        = raw.filter (fun e => !(SPECIAL.contains e.1)) := by
      rw [stripBmc]
      rw [filter_nsp_dpop _ _ (by decide), filter_nsp_dpop _ _ (by decide),
          filter_nsp_dpop _ _ (by decide), filter_nsp_dpop _ _ (by decide)]
    have hnorm : (normalize_groups (stripBmc raw)).filter (fun e => !(SPECIAL.contains e.1))
        = raw.filter (fun e => !(SPECIAL.contains e.1)) := by
      rw [hw, filter_nsp_dset _ _ _ (by decide)]
      by_cases hg : ((stripBmc raw).hasKey "group" = true
          ∧ (stripBmc raw).dgetD "group" ≠ .null)
      · rw [if_pos hg, filter_nsp_dpop _ _ (by decide), hs]
      · rw [if_neg hg, hs]
    rw [procNode]
    by_cases ht : truthy (nodeDerived raw) = true
    · rw [if_pos ht, filter_nsp_dset _ _ _ (by decide), hnorm]
    · rw [if_neg ht, hnorm]
  have hbmcs := dget_stripBmc_self raw
  have hafter : ∀ k, k ≠ "bmc" → (procNode raw).dget k
      = (normalize_groups (stripBmc raw)).dget k := by
    intro k hk
    rw [procNode]
    by_cases ht : truthy (nodeDerived raw) = true
    · rw [if_pos ht, Obj.dget_dset_ne _ _ _ _ hk]
    · rw [if_neg ht]
  refine ⟨hframe, ?_, ?_, ?_, ?_, ?_, ?_, ?_⟩
  · rw [hafter _ (by decide), hn2 _ (by decide) (by decide)]
    exact hbmcs.1
  · rw [hafter _ (by decide), hn2 _ (by decide) (by decide)]
    exact hbmcs.2.1
  · rw [hafter _ (by decide), hn2 _ (by decide) (by decide)]
    exact hbmcs.2.2.1
  · rw [hafter _ (by decide), hn2 _ (by decide) (by decide)]
    exact hbmcs.2.2.2
  · -- the group key
    rw [hafter _ (by decide), hw, Obj.dget_dset_ne _ _ _ _ (by decide)]
    by_cases hg : (raw.hasKey "group" = true ∧ raw.dgetD "group" ≠ .null)
    · rw [if_pos (by rw [hasKey_stripBmc_group, dgetD_stripBmc_group]; exact hg),
          if_pos hg, Obj.dget_dpop_self]
    · rw [if_neg (by rw [hasKey_stripBmc_group, dgetD_stripBmc_group]; exact hg),
          if_neg hg, dget_stripBmc_group]
  · -- the groups key
    rw [hafter _ (by decide), normalize_groups_dget, hasKey_stripBmc_groups,
        dgetD_stripBmc_groups, groupSeed_stripBmc, groupsContrib_stripBmc]
  · -- the bmc key
    rw [procNode]
    by_cases ht : truthy (nodeDerived raw) = true
    · rw [if_pos ht, if_pos ht, Obj.dget_dset_self]
    · rw [if_neg ht, if_neg ht, hn2 _ (by decide) (by decide),
          dget_stripBmc_ne _ _ (by decide) (by decide) (by decide) (by decide)]

/-- C4, counterexample.  A node with `group: null`: the source pops
`group` only when its value is non-null, so the null-valued `group` key
survives into the output, contradicting the claim's "minus the `group`
key (whatever the value of `group`, including null)". -/
theorem claim_C4_counterexample :
    convert (.obj [("nodes", .arr [.obj [("group", .null)]])])
      = .ok (.obj [("bmcs", .arr []),
          ("nodes", .arr [.obj [("group", .null), ("groups", .null)]])])
    ∧ Obj.hasKey [("group", JVal.null), ("groups", JVal.null)] "group" = true := by
  exact ⟨by decide, by decide⟩

/-- C4, amended: each output node is its input node minus the four
`bmc_*` keys and minus `group` when `group` was present with a non-null
value (a null-valued `group` is preserved), plus the rewritten `groups`
and — when an identifier was derived — `bmc`; all other entries are
preserved verbatim in order (shallow copy). -/
theorem claim_C4_amended (kvs : Obj) (ns : List JVal) (out : JVal)
    (hn : Obj.dget kvs "nodes" = some (.arr ns))
    (hconv : convert (.obj kvs) = .ok out) :
    ∃ bl nl, out = .obj [("bmcs", .arr bl), ("nodes", .arr nl)]
      ∧ List.Forall₂ (fun (raw : Obj) (nd : JVal) =>
          ∃ o, nd = .obj o ∧ procFrame raw o) (objsOf ns) nl := by
  have hout := convert_ok_eq kvs ns hn
  rw [hconv] at hout
  injection hout with hout
  refine ⟨_, _, hout, ?_⟩
  rw [List.map_map]
  have : ∀ os : List Obj, List.Forall₂ (fun (raw : Obj) (nd : JVal) =>
      ∃ o, nd = .obj o ∧ procFrame raw o) os (os.map (JVal.obj ∘ procNode)) := by
    intro os
    induction os with
    | nil => exact List.Forall₂.nil
    | cons o os ih =>
        exact List.Forall₂.cons ⟨procNode o, rfl, procNode_frame o⟩ ih
  exact this (objsOf ns)

/-- C4 witness: the frame relation at a concrete input (a passthrough
field `rack` kept verbatim, `bmc_mac` and `group` removed). -/
theorem claim_C4_amended_witness :
    ∃ bl nl, JVal.obj
        [("bmcs", .arr [.obj [("xname", .str "x1b0"), ("mac", .str "aa")]]),
         ("nodes", .arr [.obj [("xname", .str "x1b0n0"), ("rack", .num 7),
           ("groups", .arr [.str "g1"]), ("bmc", .str "x1b0")]])]
      = .obj [("bmcs", .arr bl), ("nodes", .arr nl)]
      ∧ List.Forall₂ (fun (raw : Obj) (nd : JVal) =>
          ∃ o, nd = .obj o ∧ procFrame raw o)
        (objsOf [.obj [("xname", .str "x1b0n0"), ("bmc_mac", .str "aa"),
          ("rack", .num 7), ("group", .str "g1")]]) nl :=
  claim_C4_amended
    [("nodes", .arr [.obj [("xname", .str "x1b0n0"), ("bmc_mac", .str "aa"),
      ("rack", .num 7), ("group", .str "g1")]])]
    [.obj [("xname", .str "x1b0n0"), ("bmc_mac", .str "aa"),
      ("rack", .num 7), ("group", .str "g1")]] _
    (by decide) (by decide)

end ClaimC4

section ClaimC9

theorem mem_of_dget_some (d : Obj) (k : String) (v : JVal)
    (h : Obj.dget d k = some v) : (k, v) ∈ d := by
  induction d with
  | nil => simp [Obj.dget_nil] at h
  | cons e d ih =>
      rw [Obj.dget_cons] at h
      by_cases he : e.1 == k
      · rw [if_pos he] at h
        injection h with h
        have he2 : e.1 = k := by simpa using he
        have : e = (k, v) := by
          obtain ⟨e1, e2⟩ := e
          simp only at he2 h
          rw [he2, h]
        rw [this]
        exact List.mem_cons_self _ _
      · simp only [Bool.not_eq_true] at he
        rw [he] at h
        simp only [Bool.false_eq_true, if_false] at h
        exact List.mem_cons_of_mem e (ih h)

theorem dget_of_mem (d : Obj) (e : String × JVal)
    (hnd : NodupKeys d) (he : e ∈ d) : Obj.dget d e.1 = some e.2 := by
  induction d with
  | nil => simp at he
  | cons f d ih =>
      rw [NodupKeys, List.map_cons, List.nodup_cons] at hnd
      rw [Obj.dget_cons]
      rcases List.mem_cons.1 he with rfl | hm
      · simp
      · have hne : (f.1 == e.1) = false := by
          refine beq_eq_false_iff_ne.2 ?_
          intro hcc
          exact hnd.1 (hcc ▸ List.mem_map_of_mem (fun x => x.1) hm)
        rw [hne]
        simp only [Bool.false_eq_true, if_false]
        exact ih hnd.2 hm

theorem NodupKeys_perm (a b : Obj) (hp : a.Perm b) (ha : NodupKeys a) : NodupKeys b := by
  rw [NodupKeys] at ha ⊢
  exact ((hp.map (fun e => e.1)).nodup_iff).1 ha

theorem dget_of_perm (a b : Obj) (hp : a.Perm b) (ha : NodupKeys a) (k : String) :
    Obj.dget a k = Obj.dget b k := by
  have hb := NodupKeys_perm a b hp ha
  cases hga : Obj.dget a k with
  | some v =>
      have := mem_of_dget_some a k v hga
      have hm : ((k, v) : String × JVal) ∈ b := hp.mem_iff.1 this
      exact (dget_of_mem b (k, v) hb hm).symm
  | none =>
      cases hgb : Obj.dget b k with
      | none => rfl
      | some v =>
          have := mem_of_dget_some b k v hgb
          have hm : ((k, v) : String × JVal) ∈ a := hp.mem_iff.2 this
          rw [dget_of_mem a (k, v) ha hm] at hga
          exact Option.noConfusion hga

theorem NodupKeys_dpop (a : Obj) (k : String) (h : NodupKeys a) :
    NodupKeys (a.dpop k) :=
  List.Nodup.sublist ((List.filter_sublist a).map (fun e => e.1)) h

theorem keys_map_replace_obj (d : Obj) (k : String) (v : JVal) :
    (d.map (fun e => if e.1 == k then (k, v) else e)).map (fun e => e.1)
      = d.map (fun e => e.1) := by
  induction d with
  | nil => rfl
  | cons e d ih =>
      rw [List.map_cons, List.map_cons, List.map_cons]
      by_cases he : e.1 == k
      · rw [if_pos he]
        have he2 : e.1 = k := by simpa using he
        rw [ih]
        simp [he2]
      · rw [if_neg he, ih]

theorem not_mem_keys_of_dget_none (d : Obj) (k : String)
    (h : Obj.dget d k = none) : k ∉ d.map (fun e => e.1) := by
  induction d with
  | nil => simp
  | cons e d ih =>
      rw [Obj.dget_cons] at h
      by_cases he : e.1 == k
      · rw [if_pos he] at h
        exact absurd h (by simp)
      · simp only [Bool.not_eq_true] at he
        rw [he] at h
        simp only [Bool.false_eq_true, if_false] at h
        rw [List.map_cons, List.mem_cons]
        rintro (rfl | hm)
        · simp at he
        · exact ih h hm

theorem NodupKeys_dset (a : Obj) (k : String) (v : JVal) (h : NodupKeys a) :
    NodupKeys (a.dset k v) := by
  rw [Obj.dset]
  by_cases hk : a.hasKey k = true
  · rw [if_pos hk, NodupKeys, keys_map_replace_obj]
    exact h
  · rw [if_neg hk, NodupKeys, List.map_append]
    have hnone : Obj.dget a k = none := by
      rw [Obj.hasKey_iff_dget] at hk
      cases hdg : Obj.dget a k with
      | none => rfl
      | some w => rw [hdg] at hk; simp at hk
    have hnm := not_mem_keys_of_dget_none a k hnone
    rw [List.nodup_append]
    exact ⟨h, List.nodup_singleton k, by simpa using hnm⟩

theorem dset_perm (a b : Obj) (k : String) (v : JVal)
    (hp : a.Perm b) (ha : NodupKeys a) :
    (a.dset k v).Perm (b.dset k v) := by
  have hget := dget_of_perm a b hp ha k
  have hkey : a.hasKey k = b.hasKey k := by
    rw [Obj.hasKey_iff_dget, Obj.hasKey_iff_dget, hget]
  rw [Obj.dset, Obj.dset, ← hkey]
  by_cases hk : a.hasKey k = true
  · rw [if_pos hk, if_pos hk]
    -- in-place replacement: a permutation argument via the mapped lists
    exact hp.map (fun e => if e.1 == k then (k, v) else e)
  · rw [if_neg hk, if_neg hk]
    exact hp.append_right [(k, v)]

theorem hasKey_of_perm (a b : Obj) (hp : a.Perm b) (ha : NodupKeys a) (k : String) :
    a.hasKey k = b.hasKey k := by
  rw [Obj.hasKey_iff_dget, Obj.hasKey_iff_dget, dget_of_perm a b hp ha k]

theorem dgetD_of_perm (a b : Obj) (hp : a.Perm b) (ha : NodupKeys a) (k : String) :
    a.dgetD k = b.dgetD k := by
  rw [Obj.dgetD, Obj.dgetD, dget_of_perm a b hp ha k]

theorem bmcValsOf_of_perm (a b : Obj) (hp : a.Perm b) (ha : NodupKeys a) :
    bmcValsOf a = bmcValsOf b := by
  rw [bmcValsOf, bmcValsOf, dgetD_of_perm a b hp ha, dgetD_of_perm a b hp ha,
      dgetD_of_perm a b hp ha, dgetD_of_perm a b hp ha]

theorem nodeDerived_of_perm (a b : Obj) (hp : a.Perm b) (ha : NodupKeys a) :
    nodeDerived a = nodeDerived b := by
  rw [nodeDerived, nodeDerived, dgetD_of_perm a b hp ha, dgetD_of_perm a b hp ha,
      dgetD_of_perm a b hp ha]

theorem stepBmcs_of_perm (bd : BmcDict) (a b : Obj) (hp : a.Perm b) (ha : NodupKeys a) :
    stepBmcs bd a = stepBmcs bd b := by
  rw [stepBmcs, stepBmcs, bmcValsOf_of_perm a b hp ha, nodeDerived_of_perm a b hp ha]

theorem stripBmc_perm (a b : Obj) (hp : a.Perm b) : (stripBmc a).Perm (stripBmc b) := by
  rw [stripBmc, stripBmc]
  exact (((hp.filter _).filter _).filter _).filter _

theorem NodupKeys_stripBmc (a : Obj) (h : NodupKeys a) : NodupKeys (stripBmc a) := by
  rw [stripBmc]
  exact NodupKeys_dpop _ _ (NodupKeys_dpop _ _ (NodupKeys_dpop _ _ (NodupKeys_dpop _ _ h)))

theorem groupSeed_of_perm (a b : Obj) (hp : a.Perm b) (ha : NodupKeys a) :
    groupSeed a = groupSeed b := by
  rw [groupSeed, groupSeed, hasKey_of_perm a b hp ha, dgetD_of_perm a b hp ha]

theorem groupsContrib_of_perm (a b : Obj) (hp : a.Perm b) (ha : NodupKeys a) :
    groupsContrib a = groupsContrib b := by
  rw [groupsContrib, groupsContrib, dgetD_of_perm a b hp ha]

theorem normalize_groups_perm (a b : Obj) (hp : a.Perm b) (ha : NodupKeys a) :
    (normalize_groups a).Perm (normalize_groups b) := by
  simp only [normalize_groups]
  rw [← hasKey_of_perm a b hp ha, ← dgetD_of_perm a b hp ha,
      ← groupSeed_of_perm a b hp ha]
  by_cases hg : (a.hasKey "group" = true ∧ a.dgetD "group" ≠ .null)
  · rw [if_pos hg, if_pos hg]
    have hp1 : (a.dpop "group").Perm (b.dpop "group") := hp.filter _
    have ha1 : NodupKeys (a.dpop "group") := NodupKeys_dpop a _ ha
    rw [← hasKey_of_perm _ _ hp1 ha1, ← dgetD_of_perm _ _ hp1 ha1,
        ← groupsContrib_of_perm _ _ hp1 ha1]
    by_cases hgs : ((a.dpop "group").hasKey "groups" = true
        ∧ (a.dpop "group").dgetD "groups" ≠ .null)
    · rw [if_pos hgs, if_pos hgs]
      exact dset_perm _ _ _ _ hp1 ha1
    · rw [if_neg hgs, if_neg hgs]
      exact dset_perm _ _ _ _ hp1 ha1
  · rw [if_neg hg, if_neg hg]
    rw [← hasKey_of_perm a b hp ha, ← dgetD_of_perm a b hp ha,
        ← groupsContrib_of_perm a b hp ha]
    by_cases hgs : (a.hasKey "groups" = true ∧ a.dgetD "groups" ≠ .null)
    · rw [if_pos hgs, if_pos hgs]
      exact dset_perm _ _ _ _ hp ha
    · rw [if_neg hgs, if_neg hgs]
      exact dset_perm _ _ _ _ hp ha

theorem NodupKeys_normalize_groups (a : Obj) (ha : NodupKeys a) :
    NodupKeys (normalize_groups a) := by
  obtain ⟨w, hw⟩ := normalize_groups_shape a
  rw [hw]
  by_cases hg : (a.hasKey "group" = true ∧ a.dgetD "group" ≠ .null)
  · rw [if_pos hg]
    exact NodupKeys_dset _ _ _ (NodupKeys_dpop a _ ha)
  · rw [if_neg hg]
    exact NodupKeys_dset _ _ _ ha

theorem procNode_perm (a b : Obj) (hp : a.Perm b) (ha : NodupKeys a) :
    (procNode a).Perm (procNode b) := by
  rw [procNode, procNode, ← nodeDerived_of_perm a b hp ha]
  have hp2 : (normalize_groups (stripBmc a)).Perm (normalize_groups (stripBmc b)) :=
    normalize_groups_perm _ _ (stripBmc_perm a b hp) (NodupKeys_stripBmc a ha)
  have ha2 : NodupKeys (normalize_groups (stripBmc a)) :=
    NodupKeys_normalize_groups _ (NodupKeys_stripBmc a ha)
  by_cases ht : truthy (nodeDerived a) = true
  · rw [if_pos ht, if_pos ht]
    exact dset_perm _ _ _ _ hp2 ha2
  · rw [if_neg ht, if_neg ht]
    exact hp2

theorem NodupKeys_procNode (a : Obj) (ha : NodupKeys a) : NodupKeys (procNode a) := by
  rw [procNode]
  by_cases ht : truthy (nodeDerived a) = true
  · rw [if_pos ht]
    exact NodupKeys_dset _ _ _ (NodupKeys_normalize_groups _ (NodupKeys_stripBmc a ha))
  · rw [if_neg ht]
    exact NodupKeys_normalize_groups _ (NodupKeys_stripBmc a ha)

/-- The object-level relation induced by `keyPerm` on the kept nodes. -/
theorem objsOf_forall2 (n1 n2 : List JVal) (h : List.Forall₂ keyPerm n1 n2) :
    List.Forall₂ (fun (a b : Obj) => a.Perm b ∧ NodupKeys a ∧ NodupKeys b)
      (objsOf n1) (objsOf n2) := by
  induction h with
  | nil => exact List.Forall₂.nil
  | cons hvw hrest ih =>
      rename_i v w l1 l2
      cases v with
      | obj a =>
          cases w with
          | obj b =>
              have hobjs1 : objsOf (JVal.obj a :: l1) = a :: objsOf l1 := by simp [objsOf]
              have hobjs2 : objsOf (JVal.obj b :: l2) = b :: objsOf l2 := by simp [objsOf]
              rw [hobjs1, hobjs2]
              exact List.Forall₂.cons hvw ih
          | null => exact absurd hvw (by simp [keyPerm])
          | bool x => exact absurd hvw (by simp [keyPerm])
          | num x => exact absurd hvw (by simp [keyPerm])
          | str x => exact absurd hvw (by simp [keyPerm])
          | arr x => exact absurd hvw (by simp [keyPerm])
      | null =>
          have : w = JVal.null := by
            cases w <;> simp [keyPerm] at hvw <;> try exact hvw.symm ▸ rfl
            rfl
          rw [this]
          simpa [objsOf] using ih
      | bool x =>
          have : w = JVal.bool x := by
            cases w <;> simp [keyPerm] at hvw
            · rw [hvw]
          rw [this]
          simpa [objsOf] using ih
      | num x =>
          have : w = JVal.num x := by
            cases w <;> simp [keyPerm] at hvw
            · rw [hvw]
          rw [this]
          simpa [objsOf] using ih
      | str x =>
          have : w = JVal.str x := by
            cases w <;> simp [keyPerm] at hvw
            · rw [hvw]
          rw [this]
          simpa [objsOf] using ih
      | arr x =>
          have : w = JVal.arr x := by
            cases w <;> simp [keyPerm] at hvw
            · rw [hvw]
          rw [this]
          simpa [objsOf] using ih

theorem foldBmcs_of_forall2 (os1 os2 : List Obj)
    (h : List.Forall₂ (fun (a b : Obj) => a.Perm b ∧ NodupKeys a ∧ NodupKeys b) os1 os2) :
    ∀ bd : BmcDict, List.foldl stepBmcs bd os1 = List.foldl stepBmcs bd os2 := by
  induction h with
  | nil => intro bd; rfl
  | cons hab hrest ih =>
      rename_i a b l1 l2
      intro bd
      rw [List.foldl_cons, List.foldl_cons,
          stepBmcs_of_perm bd a b hab.1 hab.2.1]
      exact ih _

theorem nodesOut_of_forall2 (os1 os2 : List Obj)
    (h : List.Forall₂ (fun (a b : Obj) => a.Perm b ∧ NodupKeys a ∧ NodupKeys b) os1 os2) :
    List.Forall₂ keyPerm (os1.map (fun o => JVal.obj (procNode o)))
      (os2.map (fun o => JVal.obj (procNode o))) := by
  induction h with
  | nil => exact List.Forall₂.nil
  | cons hab hrest ih =>
      rename_i a b l1 l2
      refine List.Forall₂.cons ?_ ih
      show (procNode a).Perm (procNode b) ∧ NodupKeys (procNode a) ∧ NodupKeys (procNode b)
      refine ⟨procNode_perm a b hab.1 hab.2.1, NodupKeys_procNode a hab.2.1,
        NodupKeys_procNode b hab.2.2⟩

/-- C9: two inputs whose node mappings agree up to key order (and are
duplicate-key-free) produce the identical `bmcs` list and output node
sequences that again agree pointwise up to key order. -/
theorem claim_C9 (kvs1 kvs2 : Obj) (n1 n2 : List JVal) (out1 out2 : JVal)
    (h1 : Obj.dget kvs1 "nodes" = some (.arr n1))
    (h2 : Obj.dget kvs2 "nodes" = some (.arr n2))
    (hc1 : convert (.obj kvs1) = .ok out1)
    (hc2 : convert (.obj kvs2) = .ok out2)
    (hrel : List.Forall₂ keyPerm n1 n2) :
    ∃ bl nl1 nl2,
      out1 = .obj [("bmcs", .arr bl), ("nodes", .arr nl1)]
      ∧ out2 = .obj [("bmcs", .arr bl), ("nodes", .arr nl2)]
      ∧ List.Forall₂ keyPerm nl1 nl2 := by
  have ho1 := convert_ok_eq kvs1 n1 h1
  have ho2 := convert_ok_eq kvs2 n2 h2
  rw [hc1] at ho1
  rw [hc2] at ho2
  injection ho1 with ho1
  injection ho2 with ho2
  have hrel2 := objsOf_forall2 n1 n2 hrel
  have hbd : List.foldl stepBmcs [] (objsOf n1) = List.foldl stepBmcs [] (objsOf n2) :=
    foldBmcs_of_forall2 _ _ hrel2 []
  refine ⟨_, _, List.map JVal.obj (List.map procNode (objsOf n2)), ho1, ?_, ?_⟩
  · rw [ho2, hbd]
  · rw [List.map_map, List.map_map]
    exact nodesOut_of_forall2 _ _ hrel2

/-- C9 witness: the same node under two key orders yields the identical
`bmcs` list and key-permuted output nodes. -/
theorem claim_C9_witness :
    ∃ bl nl1 nl2,
      (JVal.obj [("bmcs", .arr [.obj [("xname", .str "x1b0"), ("mac", .str "aa")]]),
        ("nodes", .arr [.obj [("rack", .num 1), ("xname", .str "x1b0n0"),
          ("groups", .null), ("bmc", .str "x1b0")]])])
        = .obj [("bmcs", .arr bl), ("nodes", .arr nl1)]
      ∧ (JVal.obj [("bmcs", .arr [.obj [("xname", .str "x1b0"), ("mac", .str "aa")]]),
        ("nodes", .arr [.obj [("xname", .str "x1b0n0"), ("rack", .num 1),
          ("groups", .null), ("bmc", .str "x1b0")]])])
        = .obj [("bmcs", .arr bl), ("nodes", .arr nl2)]
      ∧ List.Forall₂ keyPerm nl1 nl2 :=
  claim_C9
    [("nodes", .arr [.obj [("rack", .num 1), ("xname", .str "x1b0n0"),
      ("bmc_mac", .str "aa")]])]
    [("nodes", .arr [.obj [("xname", .str "x1b0n0"), ("bmc_mac", .str "aa"),
      ("rack", .num 1)]])]
    [.obj [("rack", .num 1), ("xname", .str "x1b0n0"), ("bmc_mac", .str "aa")]]
    [.obj [("xname", .str "x1b0n0"), ("bmc_mac", .str "aa"), ("rack", .num 1)]]
    _ _ (by decide) (by decide) (by decide) (by decide)
    (List.Forall₂.cons ⟨by decide, by unfold NodupKeys; decide, by unfold NodupKeys; decide⟩ List.Forall₂.nil)

end ClaimC9

section EndToEnd
-- The spec's end-to-end example.
example :
    convert (.obj [("nodes", .arr [.obj [("xname", .str "x1c0s0b0n0"),
      ("bmc_mac", .str "aa:bb"), ("group", .str "g1")]])])
    = .ok (.obj [("bmcs", .arr [.obj [("xname", .str "x1c0s0b0"), ("mac", .str "aa:bb")]]),
                 ("nodes", .arr [.obj [("xname", .str "x1c0s0b0n0"),
                   ("groups", .arr [.str "g1"]), ("bmc", .str "x1c0s0b0")]])]) := by decide
end EndToEnd
